import Mathlib

/-!
Verification of the `find_404` crawler (`src/find_404/crawler.py`) against its
natural-language specification.

The development shallow-embeds the Python source into Lean:

* URLs are lists of characters (`Chars`).
* The crawler's URL helpers (`get_domain`, `normalize_url`, `is_same_domain`,
  `is_valid_url`) call into CPython's `urllib.parse`; the relevant parts of
  that library (`urlsplit`, `urlparse`, `urlunsplit`, `urlunparse`, `urljoin`)
  are embedded here, following the CPython implementation.  Two aspects of
  CPython's `urlsplit` that no claim touches are not modelled: the removal of
  ASCII tab/newline characters from the input, and the `ValueError` raised for
  unbalanced IPv6 brackets.  On inputs free of those characters the embedding
  computes exactly what CPython computes.
* The worker `process_url` is embedded with the HTTP layer abstracted into a
  fetch oracle: `requests.get` plus the BeautifulSoup link extraction become a
  function from URL to either a transport failure (`requests.RequestException`),
  an unclassified crash (any other exception, which `process_url` does not
  catch), or a response carrying the final URL after redirects, the status
  code, the body size, whether the content type is HTML, and the list of
  anchor `href` values in document order.
* The orchestrator `crawl_site` is embedded as a wave loop with explicit fuel.
  The `ThreadPoolExecutor`/`as_completed` nondeterminism only affects the
  order in which the results of one wave are collected, so it is modelled by a
  scheduling parameter that permutes each wave before its (sequential)
  collection; theorems quantify over all such schedulers.
-/

abbrev Chars := List Char

/-- Characters allowed after the first position of a URL scheme, following
`urllib.parse.scheme_chars` (ASCII letters, digits, `+`, `-`, `.`). -/
def isSchemeChar (c : Char) : Bool :=
  c.isAlpha || c.isDigit || c == '+' || c == '-' || c == '.'

/-- Split a list at the first occurrence of `sep`, returning the parts before
and after it, or `none` when `sep` does not occur.  `splitFirst sep l = some
(a, b)` corresponds to Python `l.split(sep, 1)` when `sep in l`, and the
`isSome` test corresponds to Python `sep in l`. -/
def splitFirst (sep : Char) : Chars → Option (Chars × Chars)
  | [] => none
  | c :: rest =>
    if c = sep then some ([], rest)
    else (splitFirst sep rest).map (fun p => (c :: p.1, p.2))

/-- Split a list at the last occurrence of `sep` (Python `rfind`), returning
the parts before and after it. -/
def splitLast (sep : Char) : Chars → Option (Chars × Chars)
  | [] => none
  | c :: rest =>
    match splitLast sep rest with
    | some (a, b) => some (c :: a, b)
    | none => if c = sep then some ([], rest) else none

/-- Scan for a URL scheme: consume scheme characters until a `:`.  Mirrors the
CPython check `i = url.find(':'); (url[1:i] all in scheme_chars)`: the first
colon is reached with only scheme characters before it iff a scan that
consumes scheme characters (which exclude `:`) reaches a colon. -/
def splitSchemeAux (acc : Chars) : Chars → Option (Chars × Chars)
  | [] => none
  | c :: rest =>
    if c = ':' then some (acc.reverse, rest)
    else if isSchemeChar c then splitSchemeAux (c :: acc) rest
    else none

/-- Extract a scheme from the front of a URL, per CPython `urlsplit`: the
first character must be an ASCII letter and every character up to the first
colon must be a scheme character.  Returns the scheme (not yet lowercased)
and the remainder after the colon. -/
def splitScheme : Chars → Option (Chars × Chars)
  | [] => none
  | c :: rest =>
    if c.isAlpha then splitSchemeAux [c] rest else none

/-- Stop characters for the netloc component: `_splitnetloc` cuts the netloc
at the first `/`, `?` or `#`. -/
def isNetlocStop (c : Char) : Bool :=
  c = '/' || c = '?' || c = '#'

/-- CPython `_splitnetloc(url, 2)`: the netloc runs from after the `//` up to
the first `/`, `?` or `#`; the delimiter stays with the remainder. -/
def splitNetloc (l : Chars) : Chars × Chars :=
  (l.takeWhile (fun c => !isNetlocStop c), l.dropWhile (fun c => !isNetlocStop c))

/-- Result of `urllib.parse.urlsplit`: scheme, netloc, path, query, fragment. -/
structure SplitResult where
  scheme : Chars
  netloc : Chars
  path : Chars
  query : Chars
  fragment : Chars
deriving DecidableEq

/-- Stage 1 of `urlsplit`: extract and lowercase the scheme when present,
otherwise keep the supplied default; return the remainder. -/
def schemeSplit (url : Chars) (default : Chars) : Chars × Chars :=
  match splitScheme url with
  | some (s, r) => (s.map Char.toLower, r)
  | none => (default, url)

/-- Stage 2 of `urlsplit`: split off the netloc after a leading `//`. -/
def netlocSplit (l : Chars) : Chars × Chars :=
  if l.take 2 = ['/', '/'] then splitNetloc (l.drop 2) else ([], l)

/-- Stage 3 of `urlsplit`: split at the first `#` (`url.split('#', 1)`). -/
def fragmentSplit (l : Chars) : Chars × Chars :=
  match splitFirst '#' l with
  | some (a, b) => (a, b)
  | none => (l, [])

/-- Stage 4 of `urlsplit`: split at the first `?` (`url.split('?', 1)`). -/
def querySplit (l : Chars) : Chars × Chars :=
  match splitFirst '?' l with
  | some (a, b) => (a, b)
  | none => (l, [])

/-- Embedding of CPython `urllib.parse.urlsplit(url, scheme=default)` with
`allow_fragments=True` (the only mode the crawler uses).  Splits off, in
order: the scheme (lowercased when found, otherwise the supplied default is
kept), the netloc after a leading `//`, the fragment at the first `#`, and
the query at the first `?`. -/
def urlsplit (url : Chars) (default : Chars := []) : SplitResult :=
  let sr := schemeSplit url default
  let nr := netlocSplit sr.2
  let rf := fragmentSplit nr.2
  let pq := querySplit rf.1
  ⟨sr.1, nr.1, pq.1, pq.2, rf.2⟩

/-- Result of `urllib.parse.urlparse`: `urlsplit` plus the params component
split from the last path segment. -/
structure ParseResult where
  scheme : Chars
  netloc : Chars
  path : Chars
  params : Chars
  query : Chars
  fragment : Chars
deriving DecidableEq

/-- CPython `_splitparams(url)` (only called when `;` occurs in the path):
when the path contains a `/`, look for `;` only from the last `/` onward;
split the path at that `;` when found. -/
def splitparams (path : Chars) : Chars × Chars :=
  match splitLast '/' path with
  | some (before, lastSeg) =>
    match splitFirst ';' lastSeg with
    | some (a, b) => (before ++ '/' :: a, b)
    | none => (path, [])
  | none =>
    match splitFirst ';' path with
    | some (a, b) => (a, b)
    | none => (path, [])

/-- The `urllib.parse.uses_params` scheme list. -/
def usesParams : List Chars :=
  ["", "ftp", "hdl", "prospero", "http", "imap", "https", "shttp", "rtsp",
   "rtspu", "sip", "sips", "mms", "sftp", "tel"].map String.data

/-- The `urllib.parse.uses_netloc` scheme list. -/
def usesNetloc : List Chars :=
  ["", "ftp", "http", "gopher", "nntp", "telnet", "imap", "wais", "file", "mms",
   "https", "shttp", "snews", "prospero", "rtsp", "rtspu", "rsync", "svn",
   "svn+ssh", "sftp", "nfs", "git", "git+ssh", "ws", "wss"].map String.data

/-- The params stage of `urlparse`: split params from the path when the
scheme uses params and the path contains a `;`. -/
def paramsSplit (scheme path : Chars) : Chars × Chars :=
  if scheme ∈ usesParams ∧ (splitFirst ';' path).isSome then splitparams path
  else (path, [])

/-- Embedding of CPython `urllib.parse.urlparse(url, scheme=default)`:
`urlsplit` followed by the params split when the scheme uses params and the
path contains a `;`. -/
def urlparse (url : Chars) (default : Chars := []) : ParseResult :=
  let s := urlsplit url default
  let pp := paramsSplit s.scheme s.path
  ⟨s.scheme, s.netloc, pp.1, pp.2, s.query, s.fragment⟩

/-- Embedding of CPython `urllib.parse.urlunsplit`: the `//` and the netloc
are reattached when a netloc is present, or when the scheme is nonempty, uses
a netloc, and the path does not already start with `//`. -/
def urlunsplit (c : SplitResult) : Chars :=
  let url := c.path
  let url :=
    if c.netloc ≠ [] ∨ (c.scheme ≠ [] ∧ c.scheme ∈ usesNetloc ∧ url.take 2 ≠ ['/', '/']) then
      '/' :: '/' :: c.netloc ++ (if url ≠ [] ∧ url.take 1 ≠ ['/'] then '/' :: url else url)
    else url
  let url := if c.scheme ≠ [] then c.scheme ++ ':' :: url else url
  let url := if c.query ≠ [] then url ++ '?' :: c.query else url
  if c.fragment ≠ [] then url ++ '#' :: c.fragment else url

/-- Embedding of CPython `urllib.parse.urlunparse`: reattach params, then
`urlunsplit`. -/
def urlunparse (c : ParseResult) : Chars :=
  let url := if c.params ≠ [] then c.path ++ ';' :: c.params else c.path
  urlunsplit ⟨c.scheme, c.netloc, url, c.query, c.fragment⟩

/-- The `urllib.parse.uses_relative` scheme list. -/
def usesRelative : List Chars :=
  ["", "ftp", "http", "gopher", "nntp", "imap", "wais", "file", "https", "shttp",
   "mms", "prospero", "rtsp", "rtspu", "sftp", "svn", "svn+ssh", "ws", "wss"].map String.data

/-- CPython `urljoin`: keep the first and last elements, drop empty strings in
between (`segments[1:-1] = filter(None, segments[1:-1])`). -/
def filterMiddleTail : List Chars → List Chars
  | [] => []
  | [a] => [a]
  | a :: rest => if a = [] then filterMiddleTail rest else a :: filterMiddleTail rest

/-- Apply `filterMiddleTail` to everything after the first element. -/
def filterMiddle : List Chars → List Chars
  | [] => []
  | a :: rest => a :: filterMiddleTail rest

/-- The dot-segment resolution loop of CPython `urljoin`: `..` pops the last
resolved segment (ignoring underflow), `.` is dropped, anything else —
including an empty segment — is appended.  The accumulator is kept reversed,
so a pop is `tail` and an append is `cons`. -/
def resolveLoop (acc : List Chars) : List Chars → List Chars
  | [] => acc.reverse
  | seg :: rest =>
    if seg = ['.', '.'] then resolveLoop acc.tail rest
    else if seg = ['.'] then resolveLoop acc rest
    else resolveLoop (seg :: acc) rest

/-- Embedding of CPython `urllib.parse.urljoin(base, url)` (default
`allow_fragments=True`), following the RFC 3986 based implementation:
empty-argument shortcuts, scheme/netloc inheritance, the empty-path rule, and
relative-path merging with dot-segment resolution. -/
def urljoin (base url : Chars) : Chars :=
  if base = [] then url
  else if url = [] then base
  else
    let b := urlparse base []
    let r := urlparse url b.scheme
    if r.scheme ≠ b.scheme ∨ r.scheme ∉ usesRelative then url
    else if r.scheme ∈ usesNetloc ∧ r.netloc ≠ [] then
      urlunparse ⟨r.scheme, r.netloc, r.path, r.params, r.query, r.fragment⟩
    else
      let netloc := if r.scheme ∈ usesNetloc then b.netloc else r.netloc
      if r.path = [] ∧ r.params = [] then
        let query := if r.query = [] then b.query else r.query
        urlunparse ⟨r.scheme, netloc, b.path, b.params, query, r.fragment⟩
      else
        let baseParts := b.path.splitOn '/'
        let baseParts := if baseParts.getLast? ≠ some [] then baseParts.dropLast else baseParts
        let segments :=
          if r.path.take 1 = ['/'] then r.path.splitOn '/'
          else filterMiddle (baseParts ++ r.path.splitOn '/')
        let resolved := resolveLoop [] segments
        let resolved :=
          if segments.getLast? = some ['.', '.'] ∨ segments.getLast? = some ['.'] then
            resolved ++ [[]]
          else resolved
        let joined := List.intercalate ['/'] resolved
        let path := if joined = [] then ['/'] else joined
        urlunparse ⟨r.scheme, netloc, path, r.params, r.query, r.fragment⟩

example : urlsplit "http://sub.example.com:8080/a/b?q=1#frag".data =
    ⟨"http".data, "sub.example.com:8080".data, "/a/b".data, "q=1".data, "frag".data⟩ := by
  decide

example : urlsplit "a.com/x".data = ⟨[], [], "a.com/x".data, [], []⟩ := by decide

example : urljoin "http://a.com/x/y".data "z".data = "http://a.com/x/z".data := by decide

example : urljoin "http://a.com/x/y".data "/w".data = "http://a.com/w".data := by decide

example : urljoin "y/z".data "y/z".data = "y/y/z".data := by decide

/-! ## The crawler's URL classifier (`crawler.py`, lines 61-99) -/

/-- `get_domain(url)` from `crawler.py`: the `(scheme, netloc)` pair of the
parsed URL. -/
def get_domain (url : Chars) : Chars × Chars :=
  let parsed := urlparse url
  (parsed.scheme, parsed.netloc)

/-- `normalize_url(url)` from `crawler.py`: rejoin the URL with its own path
plus (when nonempty) the query, which in the intended cases drops the
fragment. -/
def normalize_url (url : Chars) : Chars :=
  let parsed := urlparse url
  urljoin url (parsed.path ++ (if parsed.query ≠ [] then '?' :: parsed.query else []))

/-- Python `l[-2:]`: the last two elements of a list (the whole list when it
has fewer than two). -/
def lastTwo (l : List Chars) : List Chars :=
  l.drop (l.length - 2)

/-- `is_same_domain(url, base_domain)` from `crawler.py`: compare the main
domains (the last two dot-separated parts of each netloc) and the schemes,
where `http` and `https` are interchangeable. -/
def is_same_domain (url : Chars) (base_domain : Chars × Chars) : Bool :=
  let (scheme, netloc) := get_domain url
  let (base_scheme, base_netloc) := base_domain
  let main_domain := List.intercalate ['.'] (lastTwo (netloc.splitOn '.'))
  let base_main_domain := List.intercalate ['.'] (lastTwo (base_netloc.splitOn '.'))
  let schemes_match :=
    scheme == base_scheme ||
      ((scheme == "http".data || scheme == "https".data) &&
        (base_scheme == "http".data || base_scheme == "https".data))
  schemes_match && main_domain == base_main_domain

/-- The pseudo-scheme prefixes rejected by `is_valid_url`. -/
def pseudoSchemes : List Chars :=
  ["javascript:", "void(", "#", "tel:", "mailto:"].map String.data

/-- `is_valid_url(url)` from `crawler.py`: reject the pseudo-scheme prefixes,
then require both a scheme and a netloc.  The Python `try/except` around
`urlparse` is vacuous in the embedding because the embedded parse is total
(CPython raises only for unbalanced IPv6 brackets or pathological non-ASCII
netlocs, which are outside the modelled fragment). -/
def is_valid_url (url : Chars) : Bool :=
  if pseudoSchemes.any (fun p => p.isPrefixOf url) then false
  else
    let result := urlparse url
    !result.scheme.isEmpty && !result.netloc.isEmpty

/-! ## The fetch worker (`crawler.py`, `process_url`, lines 102-175)

The HTTP layer is abstracted into a fetch oracle.  `requests.get` together
with the header inspection and the BeautifulSoup anchor extraction is a
deterministic function of the network's response, so a `Response` carries
exactly the observations `process_url` makes of it: the status code, the
body length, the final URL after redirects, whether `text/html` occurs in
the `Content-Type` header (lowercased), and the `href` values of the `<a>`
tags in document order. -/

/-- Observable content of one completed `requests.get`. -/
structure Response where
  status_code : Nat
  size : Nat
  url : Chars
  isHtml : Bool
  hrefs : List Chars
deriving DecidableEq

/-- Outcome of one `requests.get` call: a response, a
`requests.RequestException` (caught by `process_url`), or any other,
unclassified, exception (not caught by `process_url`; it propagates to the
orchestrator). -/
inductive FetchOutcome where
  | ok (r : Response)
  | exn
  | crash
deriving DecidableEq

/-- The network, as a function from requested URL to what the fetch does. -/
abbrev Fetch := Chars → FetchOutcome

/-- A value stored under `"status_code"`: Python is dynamically typed there,
holding either an `int` (an HTTP status code, or `0` in the dead branch) or a
string (`"invalid"` / `"error"`). -/
inductive StatusVal where
  | int (n : Nat)
  | str (s : String)
deriving DecidableEq

/-- Python `==` between two `status_code` values: comparisons between an
`int` and a `str` are always `False`. -/
def pyEq : StatusVal → StatusVal → Bool
  | .int a, .int b => a == b
  | .str a, .str b => a == b
  | _, _ => false

/-- A discovered link as appended to `result["links"]`: `(normalized_link,
should_recurse, discoverer, depth)`. -/
abbrev Link := Chars × Bool × Chars × Nat

/-- The per-URL dictionary assembled by `process_url` and stored by the
orchestrator (the `"url"` key of the success dictionary is never read and is
not modelled; the crash record written by the orchestrator has no `"links"`
key, which is modelled as `[]` matching the `data.get("links", [])` read). -/
structure PageData where
  status : StatusVal
  size : Nat
  links : List Link
  referrer : Option Chars
deriving DecidableEq

/-- A task tuple `(url, base_domain, should_recurse, referrer, depth)` as
placed on `to_process`. -/
abbrev CrawlTask := Chars × (Chars × Chars) × Bool × Option Chars × Nat

/-- The URL of a task. -/
def taskUrl (t : CrawlTask) : Chars := t.1

/-- The recurse flag of a task. -/
def taskRecurse (t : CrawlTask) : Bool := t.2.2.1

/-- The depth of a task. -/
def taskDepth (t : CrawlTask) : Nat := t.2.2.2.2

/-- The link-extraction loop of `process_url`: for each `href`, resolve it
against the final URL, normalize it, and append it as an internal
(`recurse=True`) link when it is same-domain, else as an external
(`recurse=False`) link only when the current page itself recurses. -/
def extractLinks (base_domain : Chars × Chars) (url final_url : Chars)
    (should_recurse : Bool) (depth : Nat) (hrefs : List Chars) : List Link :=
  hrefs.foldl
    (fun acc raw_link =>
      let next_link := urljoin final_url raw_link
      let normalized_link := normalize_url next_link
      if is_same_domain normalized_link base_domain then
        acc ++ [(normalized_link, true, url, depth + 1)]
      else if should_recurse then
        acc ++ [(normalized_link, false, url, depth + 1)]
      else acc)
    []

/-- Embedding of `process_url(url_info)`.  `none` models an exception
escaping the worker (the fetch oracle said `crash`); `some (url, data)`
models the returned pair. -/
def process_url (fetch : Fetch) (url_info : CrawlTask) : Option (Chars × PageData) :=
  let (url, base_domain, should_recurse, referrer, depth) := url_info
  if !is_valid_url url then
    some (url, ⟨.str "invalid", 0, [], referrer⟩)
  else
    match fetch url with
    | .crash => none
    | .exn => some (url, ⟨.str "error", 0, [], none⟩)
    | .ok response =>
      let status_code := response.status_code
      if 400 ≤ status_code ∧ status_code < 600 then
        some (url, ⟨.int status_code, 0, [], none⟩)
      else if pyEq (.int status_code) (.str "error") then
        some (url, ⟨.int 0, 0, [], none⟩)
      else
        let size_in_bytes := response.size
        let final_url := response.url
        if !is_same_domain final_url base_domain then
          some (url, ⟨.int status_code, size_in_bytes, [], referrer⟩)
        else
          let links :=
            if response.isHtml then
              extractLinks base_domain url final_url should_recurse depth response.hrefs
            else []
          some (url, ⟨.int status_code, size_in_bytes, links, referrer⟩)

/-! ## The crawl orchestrator (`crawler.py`, `crawl_site`, lines 178-246)

Python dictionaries keep insertion order, so `seen_urls` and `results` are
association lists; assignment replaces in place or appends a fresh key at
the end. -/

/-- Lookup in an association list (Python `d[k]` / `d.get(k)` / `k in d`). -/
def alookup (k : Chars) : List (Chars × β) → Option β
  | [] => none
  | (k', v) :: rest => if k' = k then some v else alookup k rest

/-- Python dictionary assignment `d[k] = v`: replace in place when the key
exists, append at the end otherwise. -/
def dinsert (k : Chars) (v : β) : List (Chars × β) → List (Chars × β)
  | [] => [(k, v)]
  | (k', v') :: rest => if k' = k then (k, v) :: rest else (k', v') :: dinsert k v rest

/-- The keys of an association list, in order. -/
def keys (m : List (Chars × β)) : List Chars := m.map Prod.fst

/-- The `seen_urls` dictionary: normalized URL to the referrer that first
discovered it. -/
abbrev Seen := List (Chars × Option Chars)

/-- The `results` dictionary: normalized URL to its outcome record. -/
abbrev Results := List (Chars × PageData)

/-- The link-admission loop of `crawl_site` (lines 220-235): a discovered
link enters `seen_urls` and the next frontier iff its URL is unseen and its
depth is within the configured bound. -/
def admitLinks (base_domain : Chars × Chars) (max_depth : Option Nat) (url : Chars)
    (st : Seen × List CrawlTask) : List Link → Seen × List CrawlTask
  | [] => st
  | (new_url, new_should_recurse, _, new_depth) :: rest =>
    let (seen, next) := st
    if (alookup new_url seen).isNone ∧ (∀ d, max_depth = some d → new_depth ≤ d) then
      admitLinks base_domain max_depth url
        (dinsert new_url (some url) seen,
         next ++ [(new_url, base_domain, new_should_recurse, some url, new_depth)]) rest
    else
      admitLinks base_domain max_depth url st rest

/-- Collection of one completed future (lines 213-243).  The `none` result
of `process_url` and a missing `seen_urls` key (a `KeyError`) both land in
the `except` clause, which records `status "error"`, size 0, and the
`seen_urls.get(url)` referrer.  Otherwise the outcome's referrer is resolved
from `seen_urls`, the record is stored, and the links are admitted. -/
def collectOne (fetch : Fetch) (base_domain : Chars × Chars) (max_depth : Option Nat)
    (st : Seen × Results × List CrawlTask) (t : CrawlTask) : Seen × Results × List CrawlTask :=
  let (seen, results, next) := st
  match process_url fetch t with
  | none =>
    (seen, dinsert (taskUrl t) ⟨.str "error", 0, [], (alookup (taskUrl t) seen).join⟩ results, next)
  | some (url, data) =>
    match alookup url seen with
    | none =>
      (seen, dinsert url ⟨.str "error", 0, [], (alookup url seen).join⟩ results, next)
    | some ref =>
      let data := { data with referrer := ref }
      let results := dinsert url data results
      let (seen, next) := admitLinks base_domain max_depth url (seen, next) data.links
      (seen, results, next)

/-- One wave: dispatch every task of the frontier and collect all results
(in the order the scheduler completed them), starting from an empty next
frontier (`to_process = []`, line 211). -/
def processWave (fetch : Fetch) (base_domain : Chars × Chars) (max_depth : Option Nat)
    (tasks : List CrawlTask) (seen : Seen) (results : Results) :
    Seen × Results × List CrawlTask :=
  tasks.foldl (collectOne fetch base_domain max_depth) (seen, results, [])

/-- The `while to_process:` loop, with explicit fuel.  `sched fuel` permutes
a wave into the order in which `as_completed` yields its futures.  The third
component is the frontier left over when the fuel runs out; a crawl that
terminates within its fuel leaves `[]`. -/
def crawlLoop (fetch : Fetch) (base_domain : Chars × Chars) (max_depth : Option Nat)
    (sched : Nat → List CrawlTask → List CrawlTask) :
    Nat → List CrawlTask → Seen → Results → Seen × Results × List CrawlTask
  | 0, to_process, seen, results => (seen, results, to_process)
  | _ + 1, [], seen, results => (seen, results, [])
  | fuel + 1, t :: ts, seen, results =>
    let (seen', results', next) :=
      processWave fetch base_domain max_depth (sched fuel (t :: ts)) seen results
    crawlLoop fetch base_domain max_depth sched fuel next seen' results'

/-- A wave scheduler is sound when it only reorders each wave; this is the
whole effect `ThreadPoolExecutor`/`as_completed` can have on the state.  The
`max_workers` bound changes only how many fetches are in flight at once, not
which results are collected, and is not modelled. -/
def SchedOK (sched : Nat → List CrawlTask → List CrawlTask) : Prop :=
  ∀ n l, (sched n l).Perm l

/-- The scheme prefixing of `crawl_site` (lines 192-193): prefix `http://`
when no scheme prefix is present. -/
def withScheme (start_url : Chars) : Chars :=
  if "http://".data.isPrefixOf start_url ∨ "https://".data.isPrefixOf start_url then
    start_url
  else "http://".data ++ start_url

/-- Embedding of `crawl_site(start_url, max_depth=...)` (lines 178-246):
prefix `http://` when no scheme prefix is present, compute the base domain,
seed `seen_urls` and the frontier with the normalized start URL, and run the
wave loop.  Returns `(seen_urls, results, leftover frontier)`; the Python
function returns the `results` component. -/
def crawl_site (fetch : Fetch) (sched : Nat → List CrawlTask → List CrawlTask)
    (start_url : Chars) (max_depth : Option Nat) (fuel : Nat) :
    Seen × Results × List CrawlTask :=
  let start_url := withScheme start_url
  let base_domain := get_domain start_url
  let normalized_start := normalize_url start_url
  let to_process : List CrawlTask := [(normalized_start, base_domain, true, none, 0)]
  let seen_urls : Seen := [(normalized_start, none)]
  crawlLoop fetch base_domain max_depth sched fuel to_process seen_urls []

/-- The identity scheduler: collect each wave in submission order. -/
def idSched : Nat → List CrawlTask → List CrawlTask := fun _ l => l

theorem idSched_ok : SchedOK idSched := fun _ _ => List.Perm.refl _

/-- A small site used throughout as a concrete network: the seed links to an
in-domain page, a 404, an external page and an invalid pseudo-link; the
external page redirects back into the domain and links onward; one page's
fetch raises an unclassified exception; one URL suffers a transport error. -/
def demoFetch : Fetch := fun u =>
  if u = "http://example.com".data then
    .ok ⟨200, 120, "http://example.com/".data, true,
      ["/about".data, "/about#team".data, "missing".data, "https://other.org/page".data,
       "mailto:x@y".data, "/x/../y".data]⟩
  else if u = "http://example.com/about".data then
    .ok ⟨200, 50, "http://example.com/about".data, true, ["/".data, "/contact".data]⟩
  else if u = "http://example.com/missing".data then
    .ok ⟨404, 999, "http://example.com/missing".data, true, ["/never".data]⟩
  else if u = "https://other.org/page".data then
    .ok ⟨200, 70, "http://back.example.com/ret".data, true,
      ["/fresh".data, "http://elsewhere.net/z".data]⟩
  else if u = "http://example.com/contact".data then .crash
  else if u = "http://back.example.com/fresh".data then
    .ok ⟨203, 10, "http://cdn.example.net/moved".data, false, []⟩
  else .exn

set_option synthInstance.maxSize 2000 in
example :
    crawl_site demoFetch idSched "example.com".data none 10 =
      ([("http://example.com".data, none),
        ("http://example.com/about".data, some "http://example.com".data),
        ("http://example.com/missing".data, some "http://example.com".data),
        ("https://other.org/page".data, some "http://example.com".data),
        ("x@y".data, some "http://example.com".data),
        ("http://example.com/y".data, some "http://example.com".data),
        ("http://example.com/".data, some "http://example.com/about".data),
        ("http://example.com/contact".data, some "http://example.com/about".data),
        ("http://back.example.com/fresh".data, some "https://other.org/page".data)],
       [("http://example.com".data,
         ⟨.int 200, 120,
          [("http://example.com/about".data, true, "http://example.com".data, 1),
           ("http://example.com/about".data, true, "http://example.com".data, 1),
           ("http://example.com/missing".data, true, "http://example.com".data, 1),
           ("https://other.org/page".data, false, "http://example.com".data, 1),
           ("x@y".data, false, "http://example.com".data, 1),
           ("http://example.com/y".data, true, "http://example.com".data, 1)], none⟩),
        ("http://example.com/about".data,
         ⟨.int 200, 50,
          [("http://example.com/".data, true, "http://example.com/about".data, 2),
           ("http://example.com/contact".data, true, "http://example.com/about".data, 2)],
          some "http://example.com".data⟩),
        ("http://example.com/missing".data,
         ⟨.int 404, 0, [], some "http://example.com".data⟩),
        ("https://other.org/page".data,
         ⟨.int 200, 70,
          [("http://back.example.com/fresh".data, true, "https://other.org/page".data, 2)],
          some "http://example.com".data⟩),
        ("x@y".data, ⟨.str "invalid", 0, [], some "http://example.com".data⟩),
        ("http://example.com/y".data, ⟨.str "error", 0, [], some "http://example.com".data⟩),
        ("http://example.com/".data, ⟨.str "error", 0, [], some "http://example.com/about".data⟩),
        ("http://example.com/contact".data,
         ⟨.str "error", 0, [], some "http://example.com/about".data⟩),
        ("http://back.example.com/fresh".data,
         ⟨.int 203, 10, [], some "https://other.org/page".data⟩)],
       []) := by
  decide

/-! ## Association-list lemmas -/

theorem alookup_isSome_iff {β : Type} (k : Chars) (m : List (Chars × β)) :
    (alookup k m).isSome ↔ k ∈ keys m := by
  induction m with
  | nil =>
    constructor
    · intro h
      cases h
    · intro h
      cases h
  | cons e rest ih =>
    obtain ⟨k', v⟩ := e
    by_cases h : k' = k
    · subst h
      constructor
      · intro _
        exact List.mem_cons_self _ _
      · intro _
        rw [alookup, if_pos rfl]
        rfl
    · constructor
      · intro hs
        simp only [alookup, if_neg h] at hs
        exact List.mem_cons_of_mem _ (ih.1 hs)
      · intro hm
        simp only [alookup, if_neg h]
        rcases List.mem_cons.1 hm with rfl | hm
        · exact absurd rfl h
        · exact ih.2 hm

theorem alookup_eq_none_iff {β : Type} (k : Chars) (m : List (Chars × β)) :
    alookup k m = none ↔ k ∉ keys m := by
  rw [← Option.not_isSome_iff_eq_none]
  exact not_congr (alookup_isSome_iff k m)

theorem alookup_append_left {β : Type} (k : Chars) (m m2 : List (Chars × β)) (v : β)
    (h : alookup k m = some v) : alookup k (m ++ m2) = some v := by
  induction m with
  | nil => simp [alookup] at h
  | cons e rest ih =>
    obtain ⟨k', v'⟩ := e
    simp only [alookup, List.cons_append] at h ⊢
    by_cases hk : k' = k
    · rwa [if_pos hk] at h ⊢
    · rw [if_neg hk] at h ⊢
      exact ih h

theorem alookup_append_right {β : Type} (k : Chars) (m m2 : List (Chars × β))
    (h : k ∉ keys m) : alookup k (m ++ m2) = alookup k m2 := by
  induction m with
  | nil => rfl
  | cons e rest ih =>
    obtain ⟨k', v'⟩ := e
    simp only [keys, List.map_cons, List.mem_cons, not_or] at h
    simp only [List.cons_append, alookup]
    rw [if_neg (fun hk => h.1 hk.symm)]
    exact ih h.2

theorem keys_dinsert_mem {β : Type} (k : Chars) (v : β) (m : List (Chars × β))
    (h : k ∈ keys m) : keys (dinsert k v m) = keys m := by
  induction m with
  | nil => cases h
  | cons e rest ih =>
    obtain ⟨k', v'⟩ := e
    simp only [keys, List.map_cons, List.mem_cons] at h
    simp only [dinsert]
    by_cases hk : k' = k
    · rw [if_pos hk, hk]
      rfl
    · rw [if_neg hk]
      have hm : k ∈ keys rest := by
        rcases h with h | h
        · exact absurd h.symm hk
        · exact h
      show k' :: keys (dinsert k v rest) = k' :: keys rest
      rw [ih hm]

theorem keys_dinsert_not_mem {β : Type} (k : Chars) (v : β) (m : List (Chars × β))
    (h : k ∉ keys m) : keys (dinsert k v m) = keys m ++ [k] := by
  induction m with
  | nil => rfl
  | cons e rest ih =>
    obtain ⟨k', v'⟩ := e
    simp only [keys, List.map_cons, List.mem_cons, not_or] at h
    simp only [dinsert]
    rw [if_neg (fun hk => h.1 hk.symm)]
    show k' :: keys (dinsert k v rest) = (k' :: keys rest) ++ [k]
    rw [ih h.2]
    rfl

theorem alookup_dinsert_self {β : Type} (k : Chars) (v : β) (m : List (Chars × β)) :
    alookup k (dinsert k v m) = some v := by
  induction m with
  | nil => simp [dinsert, alookup]
  | cons e rest ih =>
    obtain ⟨k', v'⟩ := e
    simp only [dinsert]
    by_cases hk : k' = k
    · rw [if_pos hk]
      simp [alookup]
    · rw [if_neg hk]
      simp only [alookup]
      rw [if_neg hk]
      exact ih

theorem alookup_dinsert_ne {β : Type} (k k2 : Chars) (v : β) (m : List (Chars × β))
    (h : k2 ≠ k) : alookup k2 (dinsert k v m) = alookup k2 m := by
  induction m with
  | nil =>
    simp only [dinsert, alookup]
    rw [if_neg (fun hk => h hk.symm)]
  | cons e rest ih =>
    obtain ⟨k', v'⟩ := e
    by_cases hk : k' = k
    · subst hk
      simp only [dinsert, if_pos rfl, alookup]
      rw [if_neg (fun h2 => h h2.symm), if_neg (fun h2 => h h2.symm)]
    · simp only [dinsert, if_neg hk, alookup]
      by_cases hk2 : k' = k2
      · rw [if_pos hk2, if_pos hk2]
      · rw [if_neg hk2, if_neg hk2]
        exact ih

theorem mem_keys_dinsert {β : Type} (k u : Chars) (v : β) (m : List (Chars × β)) :
    u ∈ keys (dinsert k v m) ↔ u ∈ keys m ∨ u = k := by
  by_cases h : k ∈ keys m
  · rw [keys_dinsert_mem k v m h]
    constructor
    · exact Or.inl
    · rintro (hu | rfl)
      · exact hu
      · exact h
  · rw [keys_dinsert_not_mem k v m h]
    simp [List.mem_append]

theorem mem_of_alookup_eq_some {β : Type} {k : Chars} {m : List (Chars × β)} {v : β}
    (h : alookup k m = some v) : (k, v) ∈ m := by
  induction m with
  | nil => simp [alookup] at h
  | cons e rest ih =>
    obtain ⟨k', v'⟩ := e
    simp only [alookup] at h
    by_cases hk : k' = k
    · rw [if_pos hk] at h
      injection h with h
      subst hk
      subst h
      exact List.mem_cons_self _ _
    · rw [if_neg hk] at h
      exact List.mem_cons_of_mem _ (ih h)

/-! ## Shape lemmas for `process_url` -/

/-- Membership characterization of the link-extraction loop: every emitted
link is normalized-same-domain with `recurse=True`, or out-of-domain with
`recurse=False` and only from a recursing page; every link names the current
page as discoverer and carries depth one more than the current depth. -/
theorem extractLinks_mem (base_domain : Chars × Chars) (url final_url : Chars)
    (should_recurse : Bool) (depth : Nat) (hrefs : List Chars) (l : Link)
    (hl : l ∈ extractLinks base_domain url final_url should_recurse depth hrefs) :
    l.2.2.1 = url ∧ l.2.2.2 = depth + 1 ∧
      ((l.2.1 = true ∧ is_same_domain l.1 base_domain = true) ∨
        (l.2.1 = false ∧ should_recurse = true ∧ is_same_domain l.1 base_domain = false)) := by
  rw [extractLinks] at hl
  suffices H : ∀ (hs : List Chars) (acc : List Link),
      (∀ x ∈ acc, x.2.2.1 = url ∧ x.2.2.2 = depth + 1 ∧
        ((x.2.1 = true ∧ is_same_domain x.1 base_domain = true) ∨
          (x.2.1 = false ∧ should_recurse = true ∧ is_same_domain x.1 base_domain = false))) →
      ∀ x ∈ hs.foldl (fun acc raw_link =>
          let next_link := urljoin final_url raw_link
          let normalized_link := normalize_url next_link
          if is_same_domain normalized_link base_domain then
            acc ++ [(normalized_link, true, url, depth + 1)]
          else if should_recurse then
            acc ++ [(normalized_link, false, url, depth + 1)]
          else acc) acc,
        x.2.2.1 = url ∧ x.2.2.2 = depth + 1 ∧
          ((x.2.1 = true ∧ is_same_domain x.1 base_domain = true) ∨
            (x.2.1 = false ∧ should_recurse = true ∧ is_same_domain x.1 base_domain = false)) by
    exact H hrefs [] (by simp) l hl
  intro hs
  induction hs with
  | nil =>
    intro acc hacc x hx
    exact hacc x hx
  | cons raw rest ih =>
    intro acc hacc x hx
    simp only [List.foldl_cons] at hx
    refine ih _ ?_ x hx
    intro y hy
    by_cases hdom : is_same_domain (normalize_url (urljoin final_url raw)) base_domain
    · simp only [hdom, if_true] at hy
      rcases List.mem_append.1 hy with hy | hy
      · exact hacc y hy
      · simp only [List.mem_singleton] at hy
        subst hy
        exact ⟨rfl, rfl, Or.inl ⟨rfl, hdom⟩⟩
    · simp only [hdom, if_false] at hy
      by_cases hrec : should_recurse = true
      · simp only [hrec, if_true] at hy
        rcases List.mem_append.1 hy with hy | hy
        · exact hacc y hy
        · simp only [List.mem_singleton] at hy
          subst hy
          simp only [Bool.not_eq_true] at hdom
          exact ⟨rfl, rfl, Or.inr ⟨rfl, hrec, hdom⟩⟩
      · simp only [Bool.not_eq_true] at hrec
        simp only [hrec, Bool.false_eq_true, if_false] at hy
        exact hacc y hy

theorem process_url_fst (fetch : Fetch) (url : Chars) (base : Chars × Chars) (rec : Bool)
    (ref : Option Chars) (depth : Nat) (r : Chars × PageData)
    (h : process_url fetch (url, base, rec, ref, depth) = some r) : r.1 = url := by
  simp only [process_url] at h
  split at h
  · cases h
    rfl
  · split at h
    · cases h
    · cases h
      rfl
    · split at h
      · cases h
        rfl
      · split at h
        · cases h
          rfl
        · split at h
          · cases h
            rfl
          · cases h
            rfl

theorem pyEq_int_str (n : Nat) (s : String) : pyEq (.int n) (.str s) = false := rfl

/-- The statuses `process_url` can actually return: `"invalid"`, `"error"`,
or the integer status code of the response the oracle returned.  The branch
that stores status `0` is unreachable, because it is guarded by the Python
comparison `status_code == "error"` between an `int` and a `str`. -/
theorem process_url_status (fetch : Fetch) (url : Chars) (base : Chars × Chars) (rec : Bool)
    (ref : Option Chars) (depth : Nat) (u : Chars) (d : PageData)
    (h : process_url fetch (url, base, rec, ref, depth) = some (u, d)) :
    d.status = .str "invalid" ∨ d.status = .str "error" ∨
      ∃ r, fetch url = .ok r ∧ d.status = .int r.status_code := by
  simp only [process_url] at h
  split at h
  · cases h
    left
    rfl
  · split at h
    · cases h
    · rename_i hfetch
      cases h
      right
      left
      rfl
    · rename_i resp hfetch
      split at h
      · cases h
        exact Or.inr (Or.inr ⟨resp, hfetch, rfl⟩)
      · split at h
        · rename_i hdead
          simp [pyEq] at hdead
        · split at h
          · cases h
            exact Or.inr (Or.inr ⟨resp, hfetch, rfl⟩)
          · cases h
            exact Or.inr (Or.inr ⟨resp, hfetch, rfl⟩)

/-- Every link `process_url` emits satisfies the `extractLinks`
characterization; in particular its depth is the task's depth plus one and
its discoverer is the task's URL. -/
theorem process_url_links (fetch : Fetch) (url : Chars) (base : Chars × Chars) (rec : Bool)
    (ref : Option Chars) (depth : Nat) (u : Chars) (d : PageData)
    (h : process_url fetch (url, base, rec, ref, depth) = some (u, d))
    (l : Link) (hl : l ∈ d.links) :
    l.2.2.1 = url ∧ l.2.2.2 = depth + 1 ∧
      ((l.2.1 = true ∧ is_same_domain l.1 base = true) ∨
        (l.2.1 = false ∧ rec = true ∧ is_same_domain l.1 base = false)) := by
  simp only [process_url] at h
  split at h
  · cases h
    simp at hl
  · split at h
    · cases h
    · cases h
      simp at hl
    · rename_i resp hfetch
      split at h
      · cases h
        simp at hl
      · split at h
        · cases h
          simp at hl
        · split at h
          · cases h
            simp at hl
          · cases h
            split at hl
            · exact extractLinks_mem _ _ _ _ _ _ l hl
            · simp at hl

/-- When the fetched page's final URL leaves the base domain, no links are
emitted (`process_url`, lines 137-146). -/
theorem process_url_out_of_domain (fetch : Fetch) (url : Chars) (base : Chars × Chars)
    (rec : Bool) (ref : Option Chars) (depth : Nat) (u : Chars) (d : PageData)
    (resp : Response)
    (h : process_url fetch (url, base, rec, ref, depth) = some (u, d))
    (hfetch : fetch url = .ok resp)
    (hdom : is_same_domain resp.url base = false) : d.links = [] := by
  simp only [process_url] at h
  split at h
  · cases h
    rfl
  · split at h
    · cases h
    · cases h
      rfl
    · rename_i resp2 hfetch2
      rw [hfetch] at hfetch2
      injection hfetch2 with hresp
      subst hresp
      split at h
      · cases h
        rfl
      · split at h
        · cases h
          rfl
        · split at h
          · cases h
            rfl
          · rename_i hdom2
            rw [hdom] at hdom2
            simp at hdom2

/-! ## The admission loop -/

theorem dinsert_not_mem {β : Type} (k : Chars) (v : β) (m : List (Chars × β))
    (h : k ∉ keys m) : dinsert k v m = m ++ [(k, v)] := by
  induction m with
  | nil => rfl
  | cons e rest ih =>
    obtain ⟨k', v'⟩ := e
    simp only [keys, List.map_cons, List.mem_cons, not_or] at h
    simp only [dinsert]
    rw [if_neg (fun hk => h.1 hk.symm), ih h.2]
    rfl

theorem mem_dinsert {β : Type} (k : Chars) (v : β) (m : List (Chars × β))
    (e : Chars × β) (h : e ∈ dinsert k v m) : e = (k, v) ∨ e ∈ m := by
  induction m with
  | nil =>
    simp only [dinsert] at h
    rcases List.mem_singleton.1 h with rfl
    exact Or.inl rfl
  | cons e2 rest ih =>
    obtain ⟨k', v'⟩ := e2
    simp only [dinsert] at h
    by_cases hk : k' = k
    · rw [if_pos hk] at h
      rcases List.mem_cons.1 h with rfl | h
      · exact Or.inl rfl
      · exact Or.inr (List.mem_cons_of_mem _ h)
    · rw [if_neg hk] at h
      rcases List.mem_cons.1 h with rfl | h
      · exact Or.inr (List.mem_cons_self _ _)
      · rcases ih h with h | h
        · exact Or.inl h
        · exact Or.inr (List.mem_cons_of_mem _ h)

/-- Specification of the admission loop (`crawl_site`, lines 220-235): it
appends a block of fresh entries to `seen_urls` and matching tasks to the
next frontier.  Each admitted entry is keyed by a link URL that was unseen
at its admission, lies within the depth bound, and carries the discovering
page as referrer; the admitted keys are mutually distinct. -/
theorem admitLinks_spec (base : Chars × Chars) (maxd : Option Nat) (url : Chars) :
    ∀ (links : List Link) (seen : Seen) (next : List CrawlTask),
    ∃ Δ : List (Chars × Bool × Nat),
      (admitLinks base maxd url (seen, next) links).1 =
          seen ++ Δ.map (fun x => (x.1, some url)) ∧
      (admitLinks base maxd url (seen, next) links).2 =
          next ++ Δ.map (fun x => (x.1, base, x.2.1, some url, x.2.2)) ∧
      (Δ.map Prod.fst).Nodup ∧
      ∀ x ∈ Δ, x.1 ∉ keys seen ∧ (∀ d, maxd = some d → x.2.2 ≤ d) ∧
        ∃ l ∈ links, l.1 = x.1 ∧ l.2.1 = x.2.1 ∧ l.2.2.2 = x.2.2 := by
  intro links
  induction links with
  | nil =>
    intro seen next
    exact ⟨[], by simp [admitLinks], by simp [admitLinks], List.nodup_nil, by simp⟩
  | cons l rest ih =>
    intro seen next
    obtain ⟨nu, nr, disc, nd⟩ := l
    by_cases hg : (alookup nu seen).isNone = true ∧ (∀ d, maxd = some d → nd ≤ d)
    · have hnu : nu ∉ keys seen := by
        rw [← alookup_eq_none_iff]
        exact Option.isNone_iff_eq_none.1 hg.1
      have hstep : admitLinks base maxd url (seen, next) ((nu, nr, disc, nd) :: rest) =
          admitLinks base maxd url
            (dinsert nu (some url) seen, next ++ [(nu, base, nr, some url, nd)]) rest := by
        simp only [admitLinks]
        rw [if_pos hg]
      obtain ⟨Δ, h1, h2, h3, h4⟩ :=
        ih (dinsert nu (some url) seen) (next ++ [(nu, base, nr, some url, nd)])
      refine ⟨(nu, nr, nd) :: Δ, ?_, ?_, ?_, ?_⟩
      · rw [hstep, h1, dinsert_not_mem nu (some url) seen hnu]
        simp
      · rw [hstep, h2]
        simp
      · simp only [List.map_cons, List.nodup_cons]
        constructor
        · intro hmem
          obtain ⟨x, hx, hxu⟩ := List.mem_map.1 hmem
          have := (h4 x hx).1
          rw [mem_keys_dinsert] at this
          push_neg at this
          exact this.2 hxu
        · exact h3
      · intro x hx
        rcases List.mem_cons.1 hx with rfl | hx
        · exact ⟨hnu, hg.2, ⟨(nu, nr, disc, nd), List.mem_cons_self _ _, rfl, rfl, rfl⟩⟩
        · obtain ⟨hx1, hx2, l2, hl2, hl2e⟩ := h4 x hx
          rw [mem_keys_dinsert] at hx1
          push_neg at hx1
          exact ⟨hx1.1, hx2, l2, List.mem_cons_of_mem _ hl2, hl2e⟩
    · have hstep : admitLinks base maxd url (seen, next) ((nu, nr, disc, nd) :: rest) =
          admitLinks base maxd url (seen, next) rest := by
        simp only [admitLinks]
        rw [if_neg hg]
      obtain ⟨Δ, h1, h2, h3, h4⟩ := ih seen next
      refine ⟨Δ, by rw [hstep, h1], by rw [hstep, h2], h3, ?_⟩
      intro x hx
      obtain ⟨hx1, hx2, l2, hl2, hl2e⟩ := h4 x hx
      exact ⟨hx1, hx2, l2, List.mem_cons_of_mem _ hl2, hl2e⟩

/-! ## The wave invariant -/

/-- The statuses an outcome record for `u` can carry, given the network
`fetch`: the `"invalid"` or `"error"` sentinels, or the integer status code
of the response the network actually produced for `u`. -/
def StatusOf (fetch : Fetch) (u : Chars) (s : StatusVal) : Prop :=
  s = .str "invalid" ∨ s = .str "error" ∨ ∃ r, fetch u = .ok r ∧ s = .int r.status_code

/-- Invariant of the collection loop.  `pend` are the tasks of the current
wave not yet collected and `next` is the frontier assembled so far: the keys
of `seen_urls` are exactly the keys of `results` plus the pending URLs plus
the next-frontier URLs, counted with multiplicity and without duplicates;
every outcome's referrer is the referrer recorded in `seen_urls` for its
key; and every outcome's status is one the worker can produce. -/
def WaveInv (fetch : Fetch) (seen : Seen) (results : Results)
    (pend next : List CrawlTask) : Prop :=
  (keys seen).Nodup ∧
  (↑(keys seen) : Multiset Chars) =
      ↑(keys results) + ↑(pend.map taskUrl) + ↑(next.map taskUrl) ∧
  (∀ e ∈ results, (e.2).referrer = (alookup e.1 seen).join) ∧
  (∀ e ∈ results, StatusOf fetch e.1 e.2.status)

theorem collectOne_inv (fetch : Fetch) (base : Chars × Chars) (maxd : Option Nat)
    (seen : Seen) (results : Results) (next : List CrawlTask) (t : CrawlTask)
    (pend : List CrawlTask)
    (hinv : WaveInv fetch seen results (t :: pend) next) :
    WaveInv fetch (collectOne fetch base maxd (seen, results, next) t).1
      (collectOne fetch base maxd (seen, results, next) t).2.1 pend
      (collectOne fetch base maxd (seen, results, next) t).2.2 := by
  obtain ⟨url, tb, trec, tref, tdep⟩ := t
  obtain ⟨h1, h2, h3, h4⟩ := hinv
  simp only [taskUrl, List.map_cons] at h2
  have hsplit : (↑(url :: pend.map taskUrl) : Multiset Chars) =
      ↑([url] : List Chars) + ↑(pend.map taskUrl) :=
    (Multiset.coe_add [url] (pend.map taskUrl)).symm
  have hu_seen : url ∈ keys seen := by
    have hm : url ∈ (↑(keys seen) : Multiset Chars) := by
      rw [h2]
      simp
    simpa using hm
  have hu_not_res : url ∉ keys results := by
    intro hmem
    have hnd : ((↑(keys results) + ↑(url :: pend.map taskUrl) + ↑(next.map taskUrl)) :
        Multiset Chars).Nodup := h2 ▸ (Multiset.coe_nodup.2 h1)
    rw [Multiset.nodup_add] at hnd
    rw [Multiset.nodup_add] at hnd
    have hdisj := hnd.1.2.2
    exact Multiset.disjoint_left.1 hdisj (by simpa using hmem) (by simp)
  have herr_inv : WaveInv fetch seen
      (dinsert url ⟨.str "error", 0, [], (alookup url seen).join⟩ results) pend next := by
    refine ⟨h1, ?_, ?_, ?_⟩
    · rw [h2, keys_dinsert_not_mem _ _ _ hu_not_res, ← Multiset.coe_add, hsplit]
      abel
    · intro e he
      rcases mem_dinsert _ _ _ _ he with rfl | he
      · rfl
      · exact h3 e he
    · intro e he
      rcases mem_dinsert _ _ _ _ he with rfl | he
      · exact Or.inr (Or.inl rfl)
      · exact h4 e he
  cases hp : process_url fetch (url, tb, trec, tref, tdep) with
  | none =>
    have hcoll : collectOne fetch base maxd (seen, results, next) (url, tb, trec, tref, tdep) =
        (seen, dinsert url ⟨.str "error", 0, [], (alookup url seen).join⟩ results, next) := by
      simp only [collectOne, hp, taskUrl]
    rw [hcoll]
    exact herr_inv
  | some r =>
    obtain ⟨u2, data⟩ := r
    have hu2 : u2 = url := process_url_fst fetch url tb trec tref tdep (u2, data) hp
    subst hu2
    cases ha : alookup u2 seen with
    | none =>
      have hcontra := (alookup_isSome_iff u2 seen).2 hu_seen
      rw [ha] at hcontra
      cases hcontra
    | some ref =>
      rcases hadm : admitLinks base maxd u2 (seen, next) data.links with ⟨s2, n2⟩
      have hcoll : collectOne fetch base maxd (seen, results, next) (u2, tb, trec, tref, tdep) =
          (s2, dinsert u2 { data with referrer := ref } results, n2) := by
        simp only [collectOne, hp, ha, hadm]
      rw [hcoll]
      obtain ⟨Δ, hseen, hnext, hnd, hfresh⟩ :=
        admitLinks_spec base maxd u2 data.links seen next
      rw [hadm] at hseen hnext
      have hs2 : s2 = seen ++ Δ.map (fun x => (x.1, some u2)) := hseen
      have hn2 : n2 = next ++ Δ.map (fun x => (x.1, base, x.2.1, some u2, x.2.2)) := hnext
      subst hs2
      subst hn2
      have hkeys_block : keys (Δ.map fun x => (x.1, some u2)) = Δ.map Prod.fst := by
        simp [keys, List.map_map, Function.comp]
      have hnext_urls : (Δ.map fun x => (x.1, base, x.2.1, some u2, x.2.2)).map taskUrl =
          Δ.map Prod.fst := by
        simp [taskUrl, List.map_map, Function.comp]
      have hkeys_append : keys (seen ++ Δ.map fun x => (x.1, some u2)) =
          keys seen ++ Δ.map Prod.fst := by
        rw [show keys (seen ++ Δ.map fun x => (x.1, some u2)) =
            keys seen ++ keys (Δ.map fun x => (x.1, some u2)) by simp [keys]]
        rw [hkeys_block]
      have hstable : ∀ w, w ∈ keys seen →
          alookup w (seen ++ Δ.map fun x => (x.1, some u2)) = alookup w seen := by
        intro w hw
        obtain ⟨v, hv⟩ := Option.isSome_iff_exists.1 ((alookup_isSome_iff w seen).2 hw)
        rw [hv]
        exact alookup_append_left w _ _ v hv
      refine ⟨?_, ?_, ?_, ?_⟩
      · rw [hkeys_append, List.nodup_append]
        refine ⟨h1, hnd, ?_⟩
        intro a ha2 hb
        obtain ⟨x, hx, hxe⟩ := List.mem_map.1 hb
        exact (hfresh x hx).1 (hxe ▸ ha2)
      · rw [hkeys_append, keys_dinsert_not_mem _ _ _ hu_not_res]
        rw [List.map_append, hnext_urls]
        rw [← Multiset.coe_add, ← Multiset.coe_add, ← Multiset.coe_add, h2, hsplit]
        abel
      · intro e he
        rcases mem_dinsert _ _ _ _ he with rfl | he
        · show ref = (alookup u2 (seen ++ _)).join
          rw [hstable u2 hu_seen, ha]
          rfl
        · rw [hstable e.1 ?_]
          · exact h3 e he
          · have hm : e.1 ∈ (↑(keys seen) : Multiset Chars) := by
              rw [h2]
              have hkr : e.1 ∈ keys results := List.mem_map_of_mem Prod.fst he
              simp [hkr]
            simpa using hm
      · intro e he
        rcases mem_dinsert _ _ _ _ he with rfl | he
        · have hst := process_url_status fetch u2 tb trec tref tdep u2 data hp
          simpa [StatusOf] using hst
        · exact h4 e he

theorem processWave_inv (fetch : Fetch) (base : Chars × Chars) (maxd : Option Nat) :
    ∀ (tasks : List CrawlTask) (seen : Seen) (results : Results) (next : List CrawlTask),
    WaveInv fetch seen results tasks next →
    WaveInv fetch (tasks.foldl (collectOne fetch base maxd) (seen, results, next)).1
      (tasks.foldl (collectOne fetch base maxd) (seen, results, next)).2.1 []
      (tasks.foldl (collectOne fetch base maxd) (seen, results, next)).2.2 := by
  intro tasks
  induction tasks with
  | nil =>
    intro seen results next hinv
    exact hinv
  | cons t rest ih =>
    intro seen results next hinv
    have hstep := collectOne_inv fetch base maxd seen results next t rest hinv
    rcases hc : collectOne fetch base maxd (seen, results, next) t with ⟨s2, r2, n2⟩
    rw [hc] at hstep
    simp only [List.foldl_cons, hc]
    exact ih s2 r2 n2 hstep

/-- Transfer of the wave invariant along a permutation of the pending wave
(the effect of `as_completed` ordering). -/
theorem WaveInv_perm (fetch : Fetch) (seen : Seen) (results : Results)
    (pend pend2 next : List CrawlTask) (hp : pend2.Perm pend)
    (hinv : WaveInv fetch seen results pend next) :
    WaveInv fetch seen results pend2 next := by
  obtain ⟨h1, h2, h3, h4⟩ := hinv
  refine ⟨h1, ?_, h3, h4⟩
  rw [h2, Multiset.coe_eq_coe.2 (hp.map taskUrl)]

/-- The loop invariant carried from wave to wave, and its preservation up to
the returned state: the output triple of `crawlLoop` satisfies the wave
invariant with the leftover frontier as the pending component. -/
theorem crawlLoop_inv (fetch : Fetch) (base : Chars × Chars) (maxd : Option Nat)
    (sched : Nat → List CrawlTask → List CrawlTask) (hs : SchedOK sched) :
    ∀ (fuel : Nat) (frontier : List CrawlTask) (seen : Seen) (results : Results),
    WaveInv fetch seen results frontier [] →
    WaveInv fetch (crawlLoop fetch base maxd sched fuel frontier seen results).1
      (crawlLoop fetch base maxd sched fuel frontier seen results).2.1
      (crawlLoop fetch base maxd sched fuel frontier seen results).2.2 [] := by
  intro fuel
  induction fuel with
  | zero =>
    intro frontier seen results hinv
    exact hinv
  | succ fuel ih =>
    intro frontier seen results hinv
    match frontier with
    | [] => exact hinv
    | t :: ts =>
      have hperm := WaveInv_perm fetch seen results (t :: ts) (sched fuel (t :: ts)) []
        (hs fuel (t :: ts)) hinv
      have hwave := processWave_inv fetch base maxd (sched fuel (t :: ts)) seen results [] hperm
      rcases hw : (sched fuel (t :: ts)).foldl (collectOne fetch base maxd)
          (seen, results, []) with ⟨s2, r2, n2⟩
      rw [hw] at hwave
      obtain ⟨w1, w2, w3, w4⟩ := hwave
      have hnextinv : WaveInv fetch s2 r2 n2 [] := by
        refine ⟨w1, ?_, w3, w4⟩
        rw [w2]
        simp only [List.map_nil, Multiset.coe_nil]
        abel
      have hunfold : crawlLoop fetch base maxd sched (fuel + 1) (t :: ts) seen results =
          crawlLoop fetch base maxd sched fuel n2 s2 r2 := by
        simp only [crawlLoop, processWave, hw]
      rw [hunfold]
      exact ih n2 s2 r2 hnextinv

/-- The wave invariant holds of the final state of every crawl. -/
theorem crawl_site_inv (fetch : Fetch) (sched : Nat → List CrawlTask → List CrawlTask)
    (start : Chars) (maxd : Option Nat) (fuel : Nat) (hs : SchedOK sched) :
    WaveInv fetch (crawl_site fetch sched start maxd fuel).1
      (crawl_site fetch sched start maxd fuel).2.1
      (crawl_site fetch sched start maxd fuel).2.2 [] := by
  have hgen : ∀ s2 : Chars, WaveInv fetch [(normalize_url s2, none)] []
      [(normalize_url s2, get_domain s2, true, none, 0)] [] := by
    intro s2
    refine ⟨by simp [keys], ?_, by simp, by simp⟩
    simp [keys, taskUrl]
  simp only [crawl_site]
  exact crawlLoop_inv fetch _ maxd sched hs fuel _ _ _ (hgen _)

/-- A network on which every fetch fails with a transport error; used to
instantiate theorems at small concrete crawls. -/
def exnFetch : Fetch := fun _ => .exn

/-- C1.  In a crawl that terminates within its fuel, the result mapping
binds each URL exactly once (its key list has no duplicates), and the
visited set `seen_urls` and the result mapping have permutation-equal key
lists: every discovered URL has exactly one outcome record, and every
outcome key was discovered exactly once. -/
theorem c1_exactly_once_same_key_domain (fetch : Fetch)
    (sched : Nat → List CrawlTask → List CrawlTask) (start : Chars) (maxd : Option Nat)
    (fuel : Nat) (hs : SchedOK sched)
    (hterm : (crawl_site fetch sched start maxd fuel).2.2 = []) :
    (keys (crawl_site fetch sched start maxd fuel).2.1).Nodup ∧
    (keys (crawl_site fetch sched start maxd fuel).1).Perm
      (keys (crawl_site fetch sched start maxd fuel).2.1) := by
  obtain ⟨h1, h2, h3, h4⟩ := crawl_site_inv fetch sched start maxd fuel hs
  rw [hterm] at h2
  simp only [List.map_nil, Multiset.coe_nil, add_zero] at h2
  have hperm : (keys (crawl_site fetch sched start maxd fuel).1).Perm
      (keys (crawl_site fetch sched start maxd fuel).2.1) := Multiset.coe_eq_coe.1 h2
  exact ⟨(hperm.nodup_iff).1 h1, hperm⟩

/-- Witness for C1 at a one-page crawl whose single fetch fails. -/
theorem c1_witness :
    (keys (crawl_site exnFetch idSched "http://a.com".data none 2).2.1).Nodup ∧
    (keys (crawl_site exnFetch idSched "http://a.com".data none 2).1).Perm
      (keys (crawl_site exnFetch idSched "http://a.com".data none 2).2.1) :=
  c1_exactly_once_same_key_domain exnFetch idSched "http://a.com".data none 2
    idSched_ok (by rfl)

/-- A network realizing spec Scenario B: the seed page links only to
`/missing`, which returns 404. -/
def notFoundFetch : Fetch := fun u =>
  if u = "http://example.com".data then
    .ok ⟨200, 10, "http://example.com".data, true, ["/missing".data]⟩
  else if u = "http://example.com/missing".data then
    .ok ⟨404, 0, "http://example.com/missing".data, true, []⟩
  else .exn

/-- C7.  A fetch whose final status code lies in `[400, 600)` yields the
outcome `(status = that code, size 0, no links, worker referrer None)`
without consulting the body; and in the final mapping of any crawl, every
entry's referrer is the referrer recorded in `seen_urls` at its first
discovery, as resolved by the orchestrator. -/
theorem c7_http_error_outcome_and_referrer (fetch : Fetch) (url : Chars)
    (tb : Chars × Chars) (trec : Bool) (tref : Option Chars) (tdep : Nat)
    (resp : Response) (hvalid : is_valid_url url = true) (hfetch : fetch url = .ok resp)
    (hlo : 400 ≤ resp.status_code) (hhi : resp.status_code < 600)
    (sched : Nat → List CrawlTask → List CrawlTask) (hs : SchedOK sched)
    (start : Chars) (maxd : Option Nat) (fuel : Nat) (e : Chars × PageData)
    (he : e ∈ (crawl_site fetch sched start maxd fuel).2.1) :
    process_url fetch (url, tb, trec, tref, tdep) =
      some (url, ⟨.int resp.status_code, 0, [], none⟩) ∧
    e.2.referrer = (alookup e.1 (crawl_site fetch sched start maxd fuel).1).join := by
  constructor
  · simp only [process_url, hvalid, hfetch, Bool.not_true, Bool.false_eq_true, if_false]
    rw [if_pos ⟨hlo, hhi⟩]
  · exact (crawl_site_inv fetch sched start maxd fuel hs).2.2.1 e he

/-- Witness for C7: Scenario B, with the 404 page discovered from the seed. -/
theorem c7_witness :
    process_url notFoundFetch ("http://example.com/missing".data,
        ("http".data, "example.com".data), true, some "http://example.com".data, 1) =
      some ("http://example.com/missing".data, ⟨.int 404, 0, [], none⟩) ∧
    ("http://example.com/missing".data,
        (⟨.int 404, 0, [], some "http://example.com".data⟩ : PageData)).2.referrer =
      (alookup "http://example.com/missing".data
        (crawl_site notFoundFetch idSched "example.com".data none 3).1).join :=
  c7_http_error_outcome_and_referrer notFoundFetch "http://example.com/missing".data
    ("http".data, "example.com".data) true (some "http://example.com".data) 1
    ⟨404, 0, "http://example.com/missing".data, true, []⟩
    (by decide) (by decide) (by decide) (by decide) idSched idSched_ok
    "example.com".data none 3
    ("http://example.com/missing".data, ⟨.int 404, 0, [], some "http://example.com".data⟩)
    (by decide)

/-- C10.  When the network never reports status code 0 (HTTP status codes
are nonzero), no outcome record of any crawl has status `0`: every status
is `"invalid"`, `"error"`, or the nonzero integer code of a response.  The
worker branch that would store status `0` is unreachable because its guard
compares the integer status code with the string `"error"`. -/
theorem c10_no_status_zero (fetch : Fetch)
    (h0 : ∀ u r, fetch u = .ok r → r.status_code ≠ 0)
    (sched : Nat → List CrawlTask → List CrawlTask) (hs : SchedOK sched)
    (start : Chars) (maxd : Option Nat) (fuel : Nat) (e : Chars × PageData)
    (he : e ∈ (crawl_site fetch sched start maxd fuel).2.1) :
    e.2.status ≠ .int 0 ∧
    (e.2.status = .str "invalid" ∨ e.2.status = .str "error" ∨
      ∃ n, n ≠ 0 ∧ e.2.status = .int n) := by
  have hst := (crawl_site_inv fetch sched start maxd fuel hs).2.2.2 e he
  rcases hst with hst | hst | ⟨r, hr, hst⟩
  · exact ⟨(by rw [hst]; intro hc; cases hc), Or.inl hst⟩
  · exact ⟨(by rw [hst]; intro hc; cases hc), Or.inr (Or.inl hst)⟩
  · have hn := h0 e.1 r hr
    refine ⟨?_, Or.inr (Or.inr ⟨r.status_code, hn, hst⟩)⟩
    rw [hst]
    intro hc
    injection hc with hc
    exact hn hc

/-- Witness for C10 at the Scenario B crawl, on the 404 entry. -/
theorem c10_witness :
    ("http://example.com/missing".data,
        (⟨.int 404, 0, [], some "http://example.com".data⟩ : PageData)).2.status ≠ .int 0 ∧
    (("http://example.com/missing".data,
        (⟨.int 404, 0, [], some "http://example.com".data⟩ : PageData)).2.status =
          .str "invalid" ∨
      ("http://example.com/missing".data,
        (⟨.int 404, 0, [], some "http://example.com".data⟩ : PageData)).2.status =
          .str "error" ∨
      ∃ n, n ≠ 0 ∧ ("http://example.com/missing".data,
        (⟨.int 404, 0, [], some "http://example.com".data⟩ : PageData)).2.status = .int n) :=
  c10_no_status_zero notFoundFetch
    (by
      intro u r h
      simp only [notFoundFetch] at h
      split at h
      · injection h with h
        subst h
        decide
      · split at h
        · injection h with h
          subst h
          decide
        · cases h)
    idSched idSched_ok "example.com".data none 3
    ("http://example.com/missing".data, ⟨.int 404, 0, [], some "http://example.com".data⟩)
    (by decide)

/-! ## Error isolation (C8) -/

/-- A worker invocation on a valid URL whose fetch raises an unclassified
exception returns no value (the exception escapes `process_url`). -/
theorem process_url_crash (fetch : Fetch) (url : Chars) (tb : Chars × Chars) (trec : Bool)
    (tref : Option Chars) (tdep : Nat) (hvalid : is_valid_url url = true)
    (hcrash : fetch url = .crash) :
    process_url fetch (url, tb, trec, tref, tdep) = none := by
  simp only [process_url, hvalid, hcrash, Bool.not_true, Bool.false_eq_true, if_false]

/-- Whatever branch the collection of one task takes, the result dictionary
is updated exactly at the task's URL. -/
theorem collectOne_results_shape (fetch : Fetch) (base : Chars × Chars) (maxd : Option Nat)
    (seen : Seen) (results : Results) (next : List CrawlTask) (t : CrawlTask) :
    ∃ pd, (collectOne fetch base maxd (seen, results, next) t).2.1 =
      dinsert (taskUrl t) pd results := by
  obtain ⟨url, tb, trec, tref, tdep⟩ := t
  cases hp : process_url fetch (url, tb, trec, tref, tdep) with
  | none =>
    refine ⟨⟨.str "error", 0, [], (alookup url seen).join⟩, ?_⟩
    simp only [collectOne, hp, taskUrl]
  | some r =>
    obtain ⟨u2, data⟩ := r
    have hu2 : u2 = url := process_url_fst fetch url tb trec tref tdep (u2, data) hp
    subst hu2
    cases ha : alookup u2 seen with
    | none =>
      refine ⟨⟨.str "error", 0, [], (alookup u2 seen).join⟩, ?_⟩
      simp only [collectOne, hp, ha, taskUrl]
    | some ref =>
      rcases hadm : admitLinks base maxd u2 (seen, next) data.links with ⟨s2, n2⟩
      refine ⟨{ data with referrer := ref }, ?_⟩
      simp only [collectOne, hp, ha, hadm, taskUrl]

/-- The seen and next components only grow; the results component of one
collection step keeps every existing key. -/
theorem collectOne_keys_mono (fetch : Fetch) (base : Chars × Chars) (maxd : Option Nat)
    (seen : Seen) (results : Results) (next : List CrawlTask) (t : CrawlTask) (u : Chars)
    (hu : u ∈ keys results) :
    u ∈ keys (collectOne fetch base maxd (seen, results, next) t).2.1 := by
  obtain ⟨pd, hpd⟩ := collectOne_results_shape fetch base maxd seen results next t
  rw [hpd, mem_keys_dinsert]
  exact Or.inl hu

theorem foldl_keys_mono (fetch : Fetch) (base : Chars × Chars) (maxd : Option Nat) :
    ∀ (tasks : List CrawlTask) (st : Seen × Results × List CrawlTask) (u : Chars),
    u ∈ keys st.2.1 → u ∈ keys (tasks.foldl (collectOne fetch base maxd) st).2.1 := by
  intro tasks
  induction tasks with
  | nil =>
    intro st u hu
    exact hu
  | cons t rest ih =>
    intro st u hu
    obtain ⟨seen, results, next⟩ := st
    simp only [List.foldl_cons]
    exact ih _ u (collectOne_keys_mono fetch base maxd seen results next t u hu)

/-- A key already bound in the results dictionary and not equal to any URL
still pending keeps its binding across the rest of the wave. -/
theorem foldl_results_stable (fetch : Fetch) (base : Chars × Chars) (maxd : Option Nat) :
    ∀ (tasks : List CrawlTask) (st : Seen × Results × List CrawlTask) (u : Chars)
    (pd : PageData), u ∉ tasks.map taskUrl → alookup u st.2.1 = some pd →
    alookup u (tasks.foldl (collectOne fetch base maxd) st).2.1 = some pd := by
  intro tasks
  induction tasks with
  | nil =>
    intro st u pd _ hl
    exact hl
  | cons t rest ih =>
    intro st u pd hnm hl
    obtain ⟨seen, results, next⟩ := st
    simp only [List.map_cons, List.mem_cons, not_or] at hnm
    simp only [List.foldl_cons]
    refine ih _ u pd hnm.2 ?_
    obtain ⟨pd2, hpd2⟩ := collectOne_results_shape fetch base maxd seen results next t
    rw [hpd2, alookup_dinsert_ne _ _ _ _ hnm.1]
    exact hl

/-- Every task of a wave ends up as a key of the results dictionary. -/
theorem foldl_tasks_in_results (fetch : Fetch) (base : Chars × Chars) (maxd : Option Nat) :
    ∀ (tasks : List CrawlTask) (st : Seen × Results × List CrawlTask),
    ∀ t2 ∈ tasks, taskUrl t2 ∈ keys (tasks.foldl (collectOne fetch base maxd) st).2.1 := by
  intro tasks
  induction tasks with
  | nil =>
    intro st t2 ht2
    cases ht2
  | cons t3 rest ih =>
    intro st t2 ht2
    obtain ⟨seen, results, next⟩ := st
    simp only [List.foldl_cons]
    rcases List.mem_cons.1 ht2 with rfl | ht2
    · apply foldl_keys_mono
      obtain ⟨pd, hpd⟩ := collectOne_results_shape fetch base maxd seen results next t2
      rw [hpd, mem_keys_dinsert]
      exact Or.inr rfl
    · exact ih _ t2 ht2

/-- A crashed task of a wave is recorded with status `"error"` and size 0. -/
theorem foldl_crash_record (fetch : Fetch) (base : Chars × Chars) (maxd : Option Nat) :
    ∀ (tasks : List CrawlTask) (st : Seen × Results × List CrawlTask) (t : CrawlTask),
    t ∈ tasks → (tasks.map taskUrl).Nodup →
    is_valid_url (taskUrl t) = true → fetch (taskUrl t) = .crash →
    ∃ ref, alookup (taskUrl t) (tasks.foldl (collectOne fetch base maxd) st).2.1 =
      some ⟨.str "error", 0, [], ref⟩ := by
  intro tasks
  induction tasks with
  | nil =>
    intro st t ht
    cases ht
  | cons t3 rest ih =>
    intro st t ht hnd hvalid hcrash
    obtain ⟨seen, results, next⟩ := st
    simp only [List.map_cons, List.nodup_cons] at hnd
    simp only [List.foldl_cons]
    rcases List.mem_cons.1 ht with rfl | ht
    · obtain ⟨u3, b3, r3, f3, d3⟩ := t
      simp only [taskUrl] at hvalid hcrash hnd
      have hcoll : collectOne fetch base maxd (seen, results, next) (u3, b3, r3, f3, d3) =
          (seen, dinsert u3 ⟨.str "error", 0, [], (alookup u3 seen).join⟩ results, next) := by
        simp only [collectOne, process_url_crash fetch u3 b3 r3 f3 d3 hvalid hcrash, taskUrl]
      rw [hcoll]
      refine ⟨(alookup u3 seen).join, ?_⟩
      apply foldl_results_stable fetch base maxd rest _ _ _ hnd.1
      exact alookup_dinsert_self _ _ _
    · exact ih _ t ht hnd.2 hvalid hcrash

/-- C8.  If one task of a wave has a valid URL whose fetch raises an
unclassified exception, then after the wave every task of the wave — the
crashed one included — appears as a key in the results dictionary, and the
crashed URL is recorded with status `"error"` and size 0: no single URL's
failure aborts the wave. -/
theorem c8_crash_isolation (fetch : Fetch) (base : Chars × Chars) (maxd : Option Nat)
    (tasks : List CrawlTask) (seen : Seen) (results : Results) (t : CrawlTask)
    (ht : t ∈ tasks) (hnd : (tasks.map taskUrl).Nodup)
    (hvalid : is_valid_url (taskUrl t) = true) (hcrash : fetch (taskUrl t) = .crash)
    (t2 : CrawlTask) (ht2 : t2 ∈ tasks) :
    taskUrl t2 ∈ keys (processWave fetch base maxd tasks seen results).2.1 ∧
    ∃ ref, alookup (taskUrl t) (processWave fetch base maxd tasks seen results).2.1 =
      some ⟨.str "error", 0, [], ref⟩ := by
  constructor
  · exact foldl_tasks_in_results fetch base maxd tasks (seen, results, []) t2 ht2
  · exact foldl_crash_record fetch base maxd tasks (seen, results, []) t ht hnd hvalid hcrash

/-- Witness for C8: a two-task wave in which the first task's fetch raises. -/
theorem c8_witness :
    taskUrl ("http://a.com/ok".data, ("http".data, "a.com".data), true,
        some "http://a.com".data, 1) ∈
      keys (processWave
        (fun u => if u = "http://a.com/boom".data then .crash else .exn)
        ("http".data, "a.com".data) none
        [("http://a.com/boom".data, ("http".data, "a.com".data), true,
            some "http://a.com".data, 1),
         ("http://a.com/ok".data, ("http".data, "a.com".data), true,
            some "http://a.com".data, 1)]
        [("http://a.com/boom".data, some "http://a.com".data),
         ("http://a.com/ok".data, some "http://a.com".data)] []).2.1 ∧
    ∃ ref, alookup (taskUrl ("http://a.com/boom".data, ("http".data, "a.com".data), true,
        some "http://a.com".data, 1))
      (processWave
        (fun u => if u = "http://a.com/boom".data then .crash else .exn)
        ("http".data, "a.com".data) none
        [("http://a.com/boom".data, ("http".data, "a.com".data), true,
            some "http://a.com".data, 1),
         ("http://a.com/ok".data, ("http".data, "a.com".data), true,
            some "http://a.com".data, 1)]
        [("http://a.com/boom".data, some "http://a.com".data),
         ("http://a.com/ok".data, some "http://a.com".data)] []).2.1 =
      some ⟨.str "error", 0, [], ref⟩ :=
  c8_crash_isolation
    (fun u => if u = "http://a.com/boom".data then .crash else .exn)
    ("http".data, "a.com".data) none
    [("http://a.com/boom".data, ("http".data, "a.com".data), true,
        some "http://a.com".data, 1),
     ("http://a.com/ok".data, ("http".data, "a.com".data), true,
        some "http://a.com".data, 1)]
    [("http://a.com/boom".data, some "http://a.com".data),
     ("http://a.com/ok".data, some "http://a.com".data)] []
    ("http://a.com/boom".data, ("http".data, "a.com".data), true,
        some "http://a.com".data, 1)
    (by decide) (by decide) (by decide) (by rfl)
    ("http://a.com/ok".data, ("http".data, "a.com".data), true,
        some "http://a.com".data, 1)
    (by decide)

/-! ## External pages and the frontier (C2) -/

theorem process_url_invalid (fetch : Fetch) (url : Chars) (tb : Chars × Chars) (trec : Bool)
    (tref : Option Chars) (tdep : Nat) (h : is_valid_url url = false) :
    process_url fetch (url, tb, trec, tref, tdep) =
      some (url, ⟨.str "invalid", 0, [], tref⟩) := by
  simp only [process_url, h, Bool.not_false, if_true]

theorem process_url_exn (fetch : Fetch) (url : Chars) (tb : Chars × Chars) (trec : Bool)
    (tref : Option Chars) (tdep : Nat) (hv : is_valid_url url = true)
    (he : fetch url = .exn) :
    process_url fetch (url, tb, trec, tref, tdep) =
      some (url, ⟨.str "error", 0, [], none⟩) := by
  simp only [process_url, hv, he, Bool.not_true, Bool.false_eq_true, if_false]

/-- C2 as amended.  A task with `recurse=false` emits only in-domain links,
each itself marked `recurse=true`; and it emits links at all only when the
fetch of its URL produced a response whose final URL (after redirects) is
back inside the base domain.  An external page whose fetch stays outside
the domain therefore contributes nothing to the frontier, but one whose
fetch redirects back into the domain does. -/
theorem c2_nonrecursing_links (fetch : Fetch) (url : Chars) (tb : Chars × Chars)
    (tref : Option Chars) (tdep : Nat) (u : Chars) (d : PageData) (l : Link)
    (h : process_url fetch (url, tb, false, tref, tdep) = some (u, d))
    (hl : l ∈ d.links) :
    (l.2.1 = true ∧ is_same_domain l.1 tb = true) ∧
    ∃ resp, fetch url = .ok resp ∧ is_same_domain resp.url tb = true := by
  constructor
  · have hc := process_url_links fetch url tb false tref tdep u d h l hl
    rcases hc.2.2 with hc2 | hc2
    · exact hc2
    · exact absurd hc2.2.1 (by simp [taskRecurse])
  · simp only [process_url] at h
    split at h
    · cases h
      simp at hl
    · split at h
      · cases h
      · cases h
        simp at hl
      · rename_i resp hfetch
        split at h
        · cases h
          simp at hl
        · split at h
          · rename_i hdead
            simp [pyEq] at hdead
          · split at h
            · cases h
              simp at hl
            · rename_i hdom
              refine ⟨resp, hfetch, ?_⟩
              simpa using hdom

/-- A network on which the external page `http://ext.org/x` redirects back
into `example.com` and links onward to a fresh in-domain page. -/
def extRedirectFetch : Fetch := fun u =>
  if u = "http://ext.org/x".data then
    .ok ⟨200, 5, "http://example.com/back".data, true, ["/new".data]⟩
  else .exn

/-- Counterexample to C2 as stated: a task carrying `recurse=false` whose
fetch redirects back into the base domain does contribute a discovered link
to the next frontier. -/
theorem c2_counterexample :
    taskRecurse ("http://ext.org/x".data, ("http".data, "example.com".data), false,
      some "http://example.com".data, 1) = false ∧
    (processWave extRedirectFetch ("http".data, "example.com".data) none
        [("http://ext.org/x".data, ("http".data, "example.com".data), false,
          some "http://example.com".data, 1)]
        [("http://example.com".data, none),
         ("http://ext.org/x".data, some "http://example.com".data)] []).2.2 =
      [("http://example.com/new".data, ("http".data, "example.com".data), true,
        some "http://ext.org/x".data, 2)] := by
  constructor
  · rfl
  · rfl

/-- Witness for the amended C2, on the link emitted by that same task. -/
theorem c2_witness :
    ((("http://example.com/new".data, true, "http://ext.org/x".data, 2) : Link).2.1 = true ∧
      is_same_domain ("http://example.com/new".data, true, "http://ext.org/x".data,
        2).1 ("http".data, "example.com".data) = true) ∧
    ∃ resp, extRedirectFetch "http://ext.org/x".data = .ok resp ∧
      is_same_domain resp.url ("http".data, "example.com".data) = true :=
  c2_nonrecursing_links extRedirectFetch "http://ext.org/x".data
    ("http".data, "example.com".data) (some "http://example.com".data) 1
    "http://ext.org/x".data
    ⟨.int 200, 5, [("http://example.com/new".data, true, "http://ext.org/x".data, 2)],
      some "http://example.com".data⟩
    ("http://example.com/new".data, true, "http://ext.org/x".data, 2)
    (by rfl) (by decide)

/-! ## Seed failures (C9) -/

/-- A crawl whose seed task produces a link-free outcome terminates after
one wave with that single outcome (referrer resolved to `None`). -/
theorem crawl_site_single (fetch : Fetch) (sched : Nat → List CrawlTask → List CrawlTask)
    (start : Chars) (maxd : Option Nat) (fuel : Nat) (hs : SchedOK sched)
    (hf : 2 ≤ fuel) (pd : PageData)
    (hp : process_url fetch (normalize_url (withScheme start),
        get_domain (withScheme start), true, none, 0) =
      some (normalize_url (withScheme start), pd))
    (hnl : pd.links = []) :
    crawl_site fetch sched start maxd fuel =
      ([(normalize_url (withScheme start), none)],
       [(normalize_url (withScheme start), { pd with referrer := none })], []) := by
  obtain ⟨f, rfl⟩ : ∃ f, fuel = f + 2 := ⟨fuel - 2, by omega⟩
  simp only [crawl_site]
  have hsched : sched (f + 1) [(normalize_url (withScheme start),
      get_domain (withScheme start), true, none, 0)] =
      [(normalize_url (withScheme start), get_domain (withScheme start), true, none, 0)] :=
    List.perm_singleton.1 (hs (f + 1) _)
  have ha : alookup (normalize_url (withScheme start))
      [(normalize_url (withScheme start), (none : Option Chars))] = some none := by
    simp [alookup]
  have hadm : admitLinks (get_domain (withScheme start)) maxd
      (normalize_url (withScheme start))
      ([(normalize_url (withScheme start), (none : Option Chars))], ([] : List CrawlTask))
      ({ pd with referrer := none }).links = ([(normalize_url (withScheme start), none)], []) := by
    have hl2 : ({ pd with referrer := (none : Option Chars) }).links = pd.links := rfl
    rw [hl2, hnl]
    rfl
  have hcoll : collectOne fetch (get_domain (withScheme start)) maxd
      ([(normalize_url (withScheme start), none)], [], [])
      (normalize_url (withScheme start), get_domain (withScheme start), true, none, 0) =
      ([(normalize_url (withScheme start), none)],
       [(normalize_url (withScheme start), { pd with referrer := none })], []) := by
    simp only [collectOne, hp, ha, hadm]
    rfl
  have h1 : crawlLoop fetch (get_domain (withScheme start)) maxd sched (f + 1 + 1)
      [(normalize_url (withScheme start), get_domain (withScheme start), true, none, 0)]
      [(normalize_url (withScheme start), none)] [] =
      crawlLoop fetch (get_domain (withScheme start)) maxd sched (f + 1) []
        [(normalize_url (withScheme start), none)]
        [(normalize_url (withScheme start), { pd with referrer := none })] := by
    simp only [crawlLoop, processWave, hsched, List.foldl_cons, List.foldl_nil, hcoll]
  have h2 : crawlLoop fetch (get_domain (withScheme start)) maxd sched (f + 1) []
      [(normalize_url (withScheme start), none)]
      [(normalize_url (withScheme start), { pd with referrer := none })] =
      ([(normalize_url (withScheme start), none)],
       [(normalize_url (withScheme start), { pd with referrer := none })], []) := by
    simp only [crawlLoop]
  rw [h1, h2]

/-- C9 as amended.  A seed that cannot be fetched usefully is not fatal:
with enough fuel, a crawl whose normalized seed URL fails validation
returns the one-entry mapping `{seed: ("invalid", 0)}`, and one whose seed
fetch raises a transport error (DNS failure, timeout, connection reset)
returns `{seed: ("error", 0)}` — in both cases a result mapping is
returned, and no crawl-wide failure occurs. -/
theorem c9_seed_failure_not_fatal (fetch : Fetch)
    (sched : Nat → List CrawlTask → List CrawlTask) (start : Chars) (maxd : Option Nat)
    (fuel : Nat) (hs : SchedOK sched) (hf : 2 ≤ fuel) :
    (is_valid_url (normalize_url (withScheme start)) = false →
      crawl_site fetch sched start maxd fuel =
        ([(normalize_url (withScheme start), none)],
         [(normalize_url (withScheme start), ⟨.str "invalid", 0, [], none⟩)], [])) ∧
    (is_valid_url (normalize_url (withScheme start)) = true →
      fetch (normalize_url (withScheme start)) = .exn →
      crawl_site fetch sched start maxd fuel =
        ([(normalize_url (withScheme start), none)],
         [(normalize_url (withScheme start), ⟨.str "error", 0, [], none⟩)], [])) := by
  constructor
  · intro hinv
    exact crawl_site_single fetch sched start maxd fuel hs hf _
      (process_url_invalid fetch _ _ _ _ _ hinv) rfl
  · intro hval hexn
    exact crawl_site_single fetch sched start maxd fuel hs hf _
      (process_url_exn fetch _ _ _ _ _ hval hexn) rfl

/-- Counterexample to C9 as stated: a seed whose DNS resolution fails (every
fetch raises a transport error) does not abort the crawl; the crawl runs to
completion and returns a result mapping recording the seed with status
`"error"`. -/
theorem c9_counterexample :
    crawl_site exnFetch idSched "unresolvable.example".data none 2 =
      ([("http://unresolvable.example".data, none)],
       [("http://unresolvable.example".data, ⟨.str "error", 0, [], none⟩)], []) := by
  rfl

/-- Witness for the amended C9 at a seed that fails validation after
normalization. -/
theorem c9_witness :
    (is_valid_url (normalize_url (withScheme "/x".data)) = false →
      crawl_site exnFetch idSched "/x".data none 2 =
        ([(normalize_url (withScheme "/x".data), none)],
         [(normalize_url (withScheme "/x".data), ⟨.str "invalid", 0, [], none⟩)], [])) ∧
    (is_valid_url (normalize_url (withScheme "/x".data)) = true →
      exnFetch (normalize_url (withScheme "/x".data)) = .exn →
      crawl_site exnFetch idSched "/x".data none 2 =
        ([(normalize_url (withScheme "/x".data), none)],
         [(normalize_url (withScheme "/x".data), ⟨.str "error", 0, [], none⟩)], [])) :=
  c9_seed_failure_not_fatal exnFetch idSched "/x".data none 2 idSched_ok (by decide)

/-! ## Depth instrumentation (C3)

To speak about the depth at which a URL was discovered, the crawl is
replayed with a ghost-instrumented `seen_urls` whose entries also record
the admission depth.  Erasing the depths recovers the real crawl exactly
(`crawl_siteG_proj`); nothing else differs from the embedding above. -/

/-- `seen_urls` with a ghost admission depth per entry. -/
abbrev SeenG := List (Chars × Option Chars × Nat)

/-- Forget the ghost depths. -/
def eraseDepth (m : SeenG) : Seen := m.map (fun e => (e.1, e.2.1))

/-- Ghost-instrumented admission loop; identical to `admitLinks` except that
the admission depth is stored alongside the referrer. -/
def admitLinksG (base_domain : Chars × Chars) (max_depth : Option Nat) (url : Chars)
    (st : SeenG × List CrawlTask) : List Link → SeenG × List CrawlTask
  | [] => st
  | (new_url, new_should_recurse, _, new_depth) :: rest =>
    let (seen, next) := st
    if (alookup new_url seen).isNone ∧ (∀ d, max_depth = some d → new_depth ≤ d) then
      admitLinksG base_domain max_depth url
        (dinsert new_url (some url, new_depth) seen,
         next ++ [(new_url, base_domain, new_should_recurse, some url, new_depth)]) rest
    else
      admitLinksG base_domain max_depth url st rest

/-- Ghost-instrumented collection of one completed future. -/
def collectOneG (fetch : Fetch) (base_domain : Chars × Chars) (max_depth : Option Nat)
    (st : SeenG × Results × List CrawlTask) (t : CrawlTask) :
    SeenG × Results × List CrawlTask :=
  let (seen, results, next) := st
  match process_url fetch t with
  | none =>
    (seen, dinsert (taskUrl t)
      ⟨.str "error", 0, [], ((alookup (taskUrl t) seen).map Prod.fst).join⟩ results, next)
  | some (url, data) =>
    match alookup url seen with
    | none =>
      (seen, dinsert url ⟨.str "error", 0, [], ((alookup url seen).map Prod.fst).join⟩
        results, next)
    | some rd =>
      let data := { data with referrer := rd.1 }
      let results := dinsert url data results
      let (seen, next) := admitLinksG base_domain max_depth url (seen, next) data.links
      (seen, results, next)

/-- Ghost-instrumented wave loop. -/
def crawlLoopG (fetch : Fetch) (base_domain : Chars × Chars) (max_depth : Option Nat)
    (sched : Nat → List CrawlTask → List CrawlTask) :
    Nat → List CrawlTask → SeenG → Results → SeenG × Results × List CrawlTask
  | 0, to_process, seen, results => (seen, results, to_process)
  | _ + 1, [], seen, results => (seen, results, [])
  | fuel + 1, t :: ts, seen, results =>
    let (seen', results', next) :=
      (sched fuel (t :: ts)).foldl (collectOneG fetch base_domain max_depth)
        (seen, results, [])
    crawlLoopG fetch base_domain max_depth sched fuel next seen' results'

/-- Ghost-instrumented `crawl_site`; the seed is admitted at depth 0. -/
def crawl_siteG (fetch : Fetch) (sched : Nat → List CrawlTask → List CrawlTask)
    (start_url : Chars) (max_depth : Option Nat) (fuel : Nat) :
    SeenG × Results × List CrawlTask :=
  let start_url := withScheme start_url
  let base_domain := get_domain start_url
  let normalized_start := normalize_url start_url
  let to_process : List CrawlTask := [(normalized_start, base_domain, true, none, 0)]
  let seen_urls : SeenG := [(normalized_start, none, 0)]
  crawlLoopG fetch base_domain max_depth sched fuel to_process seen_urls []

theorem keys_eraseDepth (m : SeenG) : keys (eraseDepth m) = keys m := by
  simp [keys, eraseDepth, List.map_map, Function.comp]

theorem alookup_eraseDepth (u : Chars) (m : SeenG) :
    alookup u (eraseDepth m) = (alookup u m).map Prod.fst := by
  induction m with
  | nil => rfl
  | cons e rest ih =>
    obtain ⟨k, r, dep⟩ := e
    simp only [eraseDepth, List.map_cons, alookup]
    by_cases hk : k = u
    · rw [if_pos hk, if_pos hk]
      rfl
    · rw [if_neg hk, if_neg hk]
      exact ih

theorem eraseDepth_dinsert (k : Chars) (r : Option Chars) (dep : Nat) (m : SeenG) :
    eraseDepth (dinsert k (r, dep) m) = dinsert k r (eraseDepth m) := by
  induction m with
  | nil => rfl
  | cons e rest ih =>
    obtain ⟨k2, r2, d2⟩ := e
    simp only [eraseDepth, List.map_cons] at ih ⊢
    simp only [dinsert]
    by_cases hk : k2 = k
    · rw [if_pos hk, if_pos hk]
      rfl
    · rw [if_neg hk, if_neg hk]
      rw [List.map_cons, ih]

/-- The ghost admission loop projects onto the real one. -/
theorem admitLinksG_proj (base : Chars × Chars) (maxd : Option Nat) (url : Chars) :
    ∀ (links : List Link) (seen : SeenG) (next : List CrawlTask),
    eraseDepth (admitLinksG base maxd url (seen, next) links).1 =
      (admitLinks base maxd url (eraseDepth seen, next) links).1 ∧
    (admitLinksG base maxd url (seen, next) links).2 =
      (admitLinks base maxd url (eraseDepth seen, next) links).2 := by
  intro links
  induction links with
  | nil =>
    intro seen next
    exact ⟨rfl, rfl⟩
  | cons l rest ih =>
    intro seen next
    obtain ⟨nu, nr, disc, nd⟩ := l
    have hiso : (alookup nu (eraseDepth seen)).isNone = (alookup nu seen).isNone := by
      rw [alookup_eraseDepth]
      cases alookup nu seen <;> rfl
    by_cases hg : (alookup nu seen).isNone = true ∧ (∀ d, maxd = some d → nd ≤ d)
    · have hg2 : (alookup nu (eraseDepth seen)).isNone = true ∧
          (∀ d, maxd = some d → nd ≤ d) := ⟨by rw [hiso]; exact hg.1, hg.2⟩
      have hstepG : admitLinksG base maxd url (seen, next) ((nu, nr, disc, nd) :: rest) =
          admitLinksG base maxd url
            (dinsert nu (some url, nd) seen, next ++ [(nu, base, nr, some url, nd)]) rest := by
        simp only [admitLinksG]
        rw [if_pos hg]
      have hstep : admitLinks base maxd url (eraseDepth seen, next)
            ((nu, nr, disc, nd) :: rest) =
          admitLinks base maxd url
            (dinsert nu (some url) (eraseDepth seen),
             next ++ [(nu, base, nr, some url, nd)]) rest := by
        simp only [admitLinks]
        rw [if_pos hg2]
      rw [hstepG, hstep, ← eraseDepth_dinsert]
      exact ih (dinsert nu (some url, nd) seen) (next ++ [(nu, base, nr, some url, nd)])
    · have hg2 : ¬((alookup nu (eraseDepth seen)).isNone = true ∧
          (∀ d, maxd = some d → nd ≤ d)) := by
        rw [hiso]
        exact hg
      have hstepG : admitLinksG base maxd url (seen, next) ((nu, nr, disc, nd) :: rest) =
          admitLinksG base maxd url (seen, next) rest := by
        simp only [admitLinksG]
        rw [if_neg hg]
      have hstep : admitLinks base maxd url (eraseDepth seen, next)
            ((nu, nr, disc, nd) :: rest) =
          admitLinks base maxd url (eraseDepth seen, next) rest := by
        simp only [admitLinks]
        rw [if_neg hg2]
      rw [hstepG, hstep]
      exact ih seen next

/-- Ghost collection projects onto the real collection. -/
theorem collectOneG_proj (fetch : Fetch) (base : Chars × Chars) (maxd : Option Nat)
    (seen : SeenG) (results : Results) (next : List CrawlTask) (t : CrawlTask) :
    eraseDepth (collectOneG fetch base maxd (seen, results, next) t).1 =
      (collectOne fetch base maxd (eraseDepth seen, results, next) t).1 ∧
    (collectOneG fetch base maxd (seen, results, next) t).2.1 =
      (collectOne fetch base maxd (eraseDepth seen, results, next) t).2.1 ∧
    (collectOneG fetch base maxd (seen, results, next) t).2.2 =
      (collectOne fetch base maxd (eraseDepth seen, results, next) t).2.2 := by
  obtain ⟨url, tb, trec, tref, tdep⟩ := t
  cases hp : process_url fetch (url, tb, trec, tref, tdep) with
  | none =>
    refine ⟨?_, ?_, ?_⟩ <;>
      simp [collectOneG, collectOne, hp, taskUrl, alookup_eraseDepth]
  | some r =>
    obtain ⟨u2, data⟩ := r
    cases ha : alookup u2 seen with
    | none =>
      have ha2 : alookup u2 (eraseDepth seen) = none := by
        rw [alookup_eraseDepth, ha]
        rfl
      refine ⟨?_, ?_, ?_⟩ <;>
        simp [collectOneG, collectOne, hp, ha, ha2, alookup_eraseDepth]
    | some rd =>
      obtain ⟨ref, dep⟩ := rd
      have hu2 : u2 = url := process_url_fst fetch url tb trec tref tdep (u2, data) hp
      subst hu2
      have ha2 : alookup u2 (eraseDepth seen) = some ref := by
        rw [alookup_eraseDepth, ha]
        rfl
      rcases hadmG : admitLinksG base maxd u2 (seen, next) data.links with ⟨sG, nG⟩
      rcases hadm : admitLinks base maxd u2 (eraseDepth seen, next) data.links
        with ⟨s2, n2⟩
      have hproj := admitLinksG_proj base maxd u2 data.links seen next
      rw [hadmG, hadm] at hproj
      have hcollG : collectOneG fetch base maxd (seen, results, next)
          (u2, tb, trec, tref, tdep) =
          (sG, dinsert u2 { data with referrer := ref } results, nG) := by
        simp only [collectOneG, hp, ha, hadmG]
      have hcoll : collectOne fetch base maxd (eraseDepth seen, results, next)
          (u2, tb, trec, tref, tdep) =
          (s2, dinsert u2 { data with referrer := ref } results, n2) := by
        simp only [collectOne, hp, ha2, hadm]
      rw [hcollG, hcoll]
      exact ⟨hproj.1, rfl, hproj.2⟩

/-- Ghost wave folding projects onto the real wave folding. -/
theorem foldlG_proj (fetch : Fetch) (base : Chars × Chars) (maxd : Option Nat) :
    ∀ (tasks : List CrawlTask) (seen : SeenG) (results : Results) (next : List CrawlTask),
    eraseDepth (tasks.foldl (collectOneG fetch base maxd) (seen, results, next)).1 =
      (tasks.foldl (collectOne fetch base maxd) (eraseDepth seen, results, next)).1 ∧
    (tasks.foldl (collectOneG fetch base maxd) (seen, results, next)).2.1 =
      (tasks.foldl (collectOne fetch base maxd) (eraseDepth seen, results, next)).2.1 ∧
    (tasks.foldl (collectOneG fetch base maxd) (seen, results, next)).2.2 =
      (tasks.foldl (collectOne fetch base maxd) (eraseDepth seen, results, next)).2.2 := by
  intro tasks
  induction tasks with
  | nil =>
    intro seen results next
    exact ⟨rfl, rfl, rfl⟩
  | cons t rest ih =>
    intro seen results next
    simp only [List.foldl_cons]
    rcases hG : collectOneG fetch base maxd (seen, results, next) t with ⟨sG, rG, nG⟩
    rcases hR : collectOne fetch base maxd (eraseDepth seen, results, next) t with ⟨s2, r2, n2⟩
    have hproj := collectOneG_proj fetch base maxd seen results next t
    rw [hG, hR] at hproj
    have e1 : eraseDepth sG = s2 := hproj.1
    have e2 : rG = r2 := hproj.2.1
    have e3 : nG = n2 := hproj.2.2
    rw [← e1, ← e2, ← e3]
    exact ih sG rG nG

/-- The ghost wave loop projects onto the real wave loop. -/
theorem crawlLoopG_proj (fetch : Fetch) (base : Chars × Chars) (maxd : Option Nat)
    (sched : Nat → List CrawlTask → List CrawlTask) :
    ∀ (fuel : Nat) (frontier : List CrawlTask) (seen : SeenG) (results : Results),
    eraseDepth (crawlLoopG fetch base maxd sched fuel frontier seen results).1 =
      (crawlLoop fetch base maxd sched fuel frontier (eraseDepth seen) results).1 ∧
    (crawlLoopG fetch base maxd sched fuel frontier seen results).2.1 =
      (crawlLoop fetch base maxd sched fuel frontier (eraseDepth seen) results).2.1 ∧
    (crawlLoopG fetch base maxd sched fuel frontier seen results).2.2 =
      (crawlLoop fetch base maxd sched fuel frontier (eraseDepth seen) results).2.2 := by
  intro fuel
  induction fuel with
  | zero =>
    intro frontier seen results
    exact ⟨rfl, rfl, rfl⟩
  | succ fuel ih =>
    intro frontier seen results
    match frontier with
    | [] => exact ⟨rfl, rfl, rfl⟩
    | t :: ts =>
      rcases hG : (sched fuel (t :: ts)).foldl (collectOneG fetch base maxd)
          (seen, results, []) with ⟨sG, rG, nG⟩
      rcases hR : (sched fuel (t :: ts)).foldl (collectOne fetch base maxd)
          (eraseDepth seen, results, []) with ⟨s2, r2, n2⟩
      have hproj := foldlG_proj fetch base maxd (sched fuel (t :: ts)) seen results []
      rw [hG, hR] at hproj
      have e1 : eraseDepth sG = s2 := hproj.1
      have e2 : rG = r2 := hproj.2.1
      have e3 : nG = n2 := hproj.2.2
      have hunfoldG : crawlLoopG fetch base maxd sched (fuel + 1) (t :: ts) seen results =
          crawlLoopG fetch base maxd sched fuel nG sG rG := by
        simp only [crawlLoopG, hG]
      have hunfold : crawlLoop fetch base maxd sched (fuel + 1) (t :: ts)
          (eraseDepth seen) results = crawlLoop fetch base maxd sched fuel n2 s2 r2 := by
        simp only [crawlLoop, processWave, hR]
      rw [hunfoldG, hunfold, ← e1, ← e2, ← e3]
      exact ih nG sG rG

/-- The ghost crawl projects onto the real crawl. -/
theorem crawl_siteG_proj (fetch : Fetch) (sched : Nat → List CrawlTask → List CrawlTask)
    (start : Chars) (maxd : Option Nat) (fuel : Nat) :
    eraseDepth (crawl_siteG fetch sched start maxd fuel).1 =
      (crawl_site fetch sched start maxd fuel).1 ∧
    (crawl_siteG fetch sched start maxd fuel).2.1 =
      (crawl_site fetch sched start maxd fuel).2.1 ∧
    (crawl_siteG fetch sched start maxd fuel).2.2 =
      (crawl_site fetch sched start maxd fuel).2.2 := by
  simp only [crawl_siteG, crawl_site]
  exact crawlLoopG_proj fetch _ maxd sched fuel _ _ []

/-- Admission respects the configured depth bound: with `max_depth = d`,
every ghost entry after admission still has depth at most `d`. -/
theorem admitLinksG_depth (base : Chars × Chars) (d : Nat) (url : Chars) :
    ∀ (links : List Link) (seen : SeenG) (next : List CrawlTask),
    (∀ e ∈ seen, e.2.2 ≤ d) →
    ∀ e ∈ (admitLinksG base (some d) url (seen, next) links).1, e.2.2 ≤ d := by
  intro links
  induction links with
  | nil =>
    intro seen next hseen e he
    exact hseen e he
  | cons l rest ih =>
    intro seen next hseen e he
    obtain ⟨nu, nr, disc, nd⟩ := l
    by_cases hg : (alookup nu seen).isNone = true ∧ (∀ d2, some d = some d2 → nd ≤ d2)
    · have hstep : admitLinksG base (some d) url (seen, next) ((nu, nr, disc, nd) :: rest) =
          admitLinksG base (some d) url
            (dinsert nu (some url, nd) seen, next ++ [(nu, base, nr, some url, nd)]) rest := by
        simp only [admitLinksG]
        rw [if_pos hg]
      rw [hstep] at he
      refine ih _ _ ?_ e he
      intro e2 he2
      rcases mem_dinsert _ _ _ _ he2 with rfl | he2
      · exact hg.2 d rfl
      · exact hseen e2 he2
    · have hstep : admitLinksG base (some d) url (seen, next) ((nu, nr, disc, nd) :: rest) =
          admitLinksG base (some d) url (seen, next) rest := by
        simp only [admitLinksG]
        rw [if_neg hg]
      rw [hstep] at he
      exact ih _ _ hseen e he

theorem collectOneG_depth (fetch : Fetch) (base : Chars × Chars) (d : Nat)
    (seen : SeenG) (results : Results) (next : List CrawlTask) (t : CrawlTask)
    (hseen : ∀ e ∈ seen, e.2.2 ≤ d) :
    ∀ e ∈ (collectOneG fetch base (some d) (seen, results, next) t).1, e.2.2 ≤ d := by
  obtain ⟨url, tb, trec, tref, tdep⟩ := t
  cases hp : process_url fetch (url, tb, trec, tref, tdep) with
  | none =>
    simp only [collectOneG, hp]
    exact hseen
  | some r =>
    obtain ⟨u2, data⟩ := r
    have hu2 : u2 = url := process_url_fst fetch url tb trec tref tdep (u2, data) hp
    subst hu2
    cases ha : alookup u2 seen with
    | none =>
      simp only [collectOneG, hp, ha]
      exact hseen
    | some rd =>
      rcases hadm : admitLinksG base (some d) u2 (seen, next) data.links with ⟨sG, nG⟩
      have hcoll : (collectOneG fetch base (some d) (seen, results, next)
          (u2, tb, trec, tref, tdep)).1 = sG := by
        simp only [collectOneG, hp, ha, hadm]
      rw [hcoll]
      have hdep := admitLinksG_depth base d u2 data.links seen next hseen
      rw [hadm] at hdep
      exact hdep

theorem foldlG_depth (fetch : Fetch) (base : Chars × Chars) (d : Nat) :
    ∀ (tasks : List CrawlTask) (seen : SeenG) (results : Results) (next : List CrawlTask),
    (∀ e ∈ seen, e.2.2 ≤ d) →
    ∀ e ∈ (tasks.foldl (collectOneG fetch base (some d)) (seen, results, next)).1,
      e.2.2 ≤ d := by
  intro tasks
  induction tasks with
  | nil =>
    intro seen results next hseen e he
    exact hseen e he
  | cons t rest ih =>
    intro seen results next hseen e he
    simp only [List.foldl_cons] at he
    rcases hc : collectOneG fetch base (some d) (seen, results, next) t with ⟨sG, rG, nG⟩
    have hstep := collectOneG_depth fetch base d seen results next t hseen
    rw [hc] at hstep he
    exact ih sG rG nG hstep e he

theorem crawlLoopG_depth (fetch : Fetch) (base : Chars × Chars) (d : Nat)
    (sched : Nat → List CrawlTask → List CrawlTask) :
    ∀ (fuel : Nat) (frontier : List CrawlTask) (seen : SeenG) (results : Results),
    (∀ e ∈ seen, e.2.2 ≤ d) →
    ∀ e ∈ (crawlLoopG fetch base (some d) sched fuel frontier seen results).1,
      e.2.2 ≤ d := by
  intro fuel
  induction fuel with
  | zero =>
    intro frontier seen results hseen e he
    exact hseen e he
  | succ fuel ih =>
    intro frontier seen results hseen e he
    match frontier with
    | [] => exact hseen e he
    | t :: ts =>
      rcases hw : (sched fuel (t :: ts)).foldl (collectOneG fetch base (some d))
          (seen, results, []) with ⟨sG, rG, nG⟩
      have hwave := foldlG_depth fetch base d (sched fuel (t :: ts)) seen results [] hseen
      rw [hw] at hwave
      have hunfold : crawlLoopG fetch base (some d) sched (fuel + 1) (t :: ts) seen results =
          crawlLoopG fetch base (some d) sched fuel nG sG rG := by
        simp only [crawlLoopG, hw]
      rw [hunfold] at he
      exact ih nG sG rG hwave e he

/-- A crawl whose seed worker crashes terminates after one wave with the
seed recorded as `"error"`. -/
theorem crawl_site_crash_single (fetch : Fetch)
    (sched : Nat → List CrawlTask → List CrawlTask) (start : Chars) (maxd : Option Nat)
    (fuel : Nat) (hs : SchedOK sched) (hf : 2 ≤ fuel)
    (hp : process_url fetch (normalize_url (withScheme start),
        get_domain (withScheme start), true, none, 0) = none) :
    crawl_site fetch sched start maxd fuel =
      ([(normalize_url (withScheme start), none)],
       [(normalize_url (withScheme start), ⟨.str "error", 0, [], none⟩)], []) := by
  obtain ⟨f, rfl⟩ : ∃ f, fuel = f + 2 := ⟨fuel - 2, by omega⟩
  simp only [crawl_site]
  have hsched : sched (f + 1) [(normalize_url (withScheme start),
      get_domain (withScheme start), true, none, 0)] =
      [(normalize_url (withScheme start), get_domain (withScheme start), true, none, 0)] :=
    List.perm_singleton.1 (hs (f + 1) _)
  have ha : alookup (normalize_url (withScheme start))
      [(normalize_url (withScheme start), (none : Option Chars))] = some none := by
    simp [alookup]
  have hcoll : collectOne fetch (get_domain (withScheme start)) maxd
      ([(normalize_url (withScheme start), none)], [], [])
      (normalize_url (withScheme start), get_domain (withScheme start), true, none, 0) =
      ([(normalize_url (withScheme start), none)],
       [(normalize_url (withScheme start), ⟨.str "error", 0, [], none⟩)], []) := by
    simp only [collectOne, hp, taskUrl]
    rw [ha]
    rfl
  have h1 : crawlLoop fetch (get_domain (withScheme start)) maxd sched (f + 1 + 1)
      [(normalize_url (withScheme start), get_domain (withScheme start), true, none, 0)]
      [(normalize_url (withScheme start), none)] [] =
      crawlLoop fetch (get_domain (withScheme start)) maxd sched (f + 1) []
        [(normalize_url (withScheme start), none)]
        [(normalize_url (withScheme start), ⟨.str "error", 0, [], none⟩)] := by
    simp only [crawlLoop, processWave, hsched, List.foldl_cons, List.foldl_nil, hcoll]
  have h2 : crawlLoop fetch (get_domain (withScheme start)) maxd sched (f + 1) []
      [(normalize_url (withScheme start), none)]
      [(normalize_url (withScheme start), ⟨.str "error", 0, [], none⟩)] =
      ([(normalize_url (withScheme start), none)],
       [(normalize_url (withScheme start), ⟨.str "error", 0, [], none⟩)], []) := by
    simp only [crawlLoop]
  rw [h1, h2]

/-- Generalization of `crawl_site_single`: with any outcome for the seed
that admits nothing into the frontier, the crawl terminates after one wave
with exactly the seed's record. -/
theorem crawl_site_one_wave (fetch : Fetch)
    (sched : Nat → List CrawlTask → List CrawlTask) (start : Chars) (maxd : Option Nat)
    (fuel : Nat) (hs : SchedOK sched) (hf : 2 ≤ fuel) (pd : PageData)
    (hp : process_url fetch (normalize_url (withScheme start),
        get_domain (withScheme start), true, none, 0) =
      some (normalize_url (withScheme start), pd))
    (hadm : admitLinks (get_domain (withScheme start)) maxd
        (normalize_url (withScheme start))
        ([(normalize_url (withScheme start), none)], []) pd.links =
      ([(normalize_url (withScheme start), none)], [])) :
    crawl_site fetch sched start maxd fuel =
      ([(normalize_url (withScheme start), none)],
       [(normalize_url (withScheme start), { pd with referrer := none })], []) := by
  obtain ⟨f, rfl⟩ : ∃ f, fuel = f + 2 := ⟨fuel - 2, by omega⟩
  simp only [crawl_site]
  have hsched : sched (f + 1) [(normalize_url (withScheme start),
      get_domain (withScheme start), true, none, 0)] =
      [(normalize_url (withScheme start), get_domain (withScheme start), true, none, 0)] :=
    List.perm_singleton.1 (hs (f + 1) _)
  have ha : alookup (normalize_url (withScheme start))
      [(normalize_url (withScheme start), (none : Option Chars))] = some none := by
    simp [alookup]
  have hadm2 : admitLinks (get_domain (withScheme start)) maxd
      (normalize_url (withScheme start))
      ([(normalize_url (withScheme start), none)], [])
      ({ pd with referrer := (none : Option Chars) }).links =
      ([(normalize_url (withScheme start), none)], []) := hadm
  have hcoll : collectOne fetch (get_domain (withScheme start)) maxd
      ([(normalize_url (withScheme start), none)], [], [])
      (normalize_url (withScheme start), get_domain (withScheme start), true, none, 0) =
      ([(normalize_url (withScheme start), none)],
       [(normalize_url (withScheme start), { pd with referrer := none })], []) := by
    simp only [collectOne, hp, ha, hadm2]
    rfl
  have h1 : crawlLoop fetch (get_domain (withScheme start)) maxd sched (f + 1 + 1)
      [(normalize_url (withScheme start), get_domain (withScheme start), true, none, 0)]
      [(normalize_url (withScheme start), none)] [] =
      crawlLoop fetch (get_domain (withScheme start)) maxd sched (f + 1) []
        [(normalize_url (withScheme start), none)]
        [(normalize_url (withScheme start), { pd with referrer := none })] := by
    simp only [crawlLoop, processWave, hsched, List.foldl_cons, List.foldl_nil, hcoll]
  have h2 : crawlLoop fetch (get_domain (withScheme start)) maxd sched (f + 1) []
      [(normalize_url (withScheme start), none)]
      [(normalize_url (withScheme start), { pd with referrer := none })] =
      ([(normalize_url (withScheme start), none)],
       [(normalize_url (withScheme start), { pd with referrer := none })], []) := by
    simp only [crawlLoop]
  rw [h1, h2]

/-- With `max_depth = 0`, nothing the seed links to is ever admitted: the
result mapping holds exactly the seed. -/
theorem crawl_site_depth0_keys (fetch : Fetch)
    (sched : Nat → List CrawlTask → List CrawlTask) (start : Chars) (fuel : Nat)
    (hs : SchedOK sched) (hf : 2 ≤ fuel) :
    keys (crawl_site fetch sched start (some 0) fuel).2.1 =
      [normalize_url (withScheme start)] := by
  cases hp : process_url fetch (normalize_url (withScheme start),
      get_domain (withScheme start), true, none, 0) with
  | none =>
    rw [crawl_site_crash_single fetch sched start (some 0) fuel hs hf hp]
    rfl
  | some r =>
    obtain ⟨u2, pd⟩ := r
    have hu2 : u2 = normalize_url (withScheme start) :=
      process_url_fst fetch _ _ _ _ _ (u2, pd) hp
    subst hu2
    obtain ⟨Δ, hseen, hnext, hnd, hfresh⟩ := admitLinks_spec
      (get_domain (withScheme start)) (some 0) (normalize_url (withScheme start)) pd.links
      [(normalize_url (withScheme start), none)] []
    have hΔ : Δ = [] := by
      rw [List.eq_nil_iff_forall_not_mem]
      intro x hx
      obtain ⟨_, hdep, l, hl, hle⟩ := hfresh x hx
      have hld := (process_url_links fetch (normalize_url (withScheme start))
        (get_domain (withScheme start)) true none 0
        (normalize_url (withScheme start)) pd hp l hl).2.1
      have hx0 : x.2.2 ≤ 0 := hdep 0 rfl
      rw [← hle.2.2] at hx0
      simp only [taskDepth] at hld
      omega
    rw [hΔ] at hseen hnext
    simp only [List.map_nil, List.append_nil] at hseen hnext
    have hadm : admitLinks (get_domain (withScheme start)) (some 0)
        (normalize_url (withScheme start))
        ([(normalize_url (withScheme start), none)], []) pd.links =
        ([(normalize_url (withScheme start), none)], []) := by
      rcases hA : admitLinks (get_domain (withScheme start)) (some 0)
          (normalize_url (withScheme start))
          ([(normalize_url (withScheme start), none)], []) pd.links with ⟨sA, nA⟩
      rw [hA] at hseen hnext
      have e1 : sA = [(normalize_url (withScheme start), none)] := hseen
      have e2 : nA = [] := hnext
      rw [e1, e2]
    rw [crawl_site_one_wave fetch sched start (some 0) fuel hs hf pd hp hadm]
    rfl

/-- `u` was admitted into the (ghost) visited set at depth at most `d`. -/
def discoveredWithin (d : Nat) (u : Chars) (m : SeenG) : Prop :=
  match alookup u m with
  | some rd => rd.2 ≤ d
  | none => False

/-- C3.  With a configured maximum depth `d`: the ghost-instrumented crawl
projects exactly onto the real crawl; every key of the result mapping was
admitted into the visited set at a depth at most `d`; and with `d = 0` and
fuel for the one wave, the result mapping holds exactly the seed's
normalized URL, whatever the seed links to. -/
theorem c3_depth_monotonicity (fetch : Fetch)
    (sched : Nat → List CrawlTask → List CrawlTask) (start : Chars) (d : Nat)
    (fuel : Nat) (hs : SchedOK sched) (u : Chars)
    (hu : u ∈ keys (crawl_site fetch sched start (some d) fuel).2.1) :
    (crawl_site fetch sched start (some d) fuel).1 =
      eraseDepth (crawl_siteG fetch sched start (some d) fuel).1 ∧
    discoveredWithin d u (crawl_siteG fetch sched start (some d) fuel).1 ∧
    (2 ≤ fuel → d = 0 →
      keys (crawl_site fetch sched start (some d) fuel).2.1 =
        [normalize_url (withScheme start)]) := by
  have hproj := crawl_siteG_proj fetch sched start (some d) fuel
  refine ⟨hproj.1.symm, ?_, ?_⟩
  · have hWI := crawl_site_inv fetch sched start (some d) fuel hs
    have h2 := hWI.2.1
    have humem : u ∈ keys (crawl_site fetch sched start (some d) fuel).1 := by
      have hm : u ∈ (↑(keys (crawl_site fetch sched start (some d) fuel).1) :
          Multiset Chars) := by
        rw [h2]
        simp [hu]
      simpa using hm
    have humemG : u ∈ keys (crawl_siteG fetch sched start (some d) fuel).1 := by
      rw [← keys_eraseDepth, hproj.1]
      exact humem
    have hdep0 : ∀ e ∈ (crawl_siteG fetch sched start (some d) fuel).1, e.2.2 ≤ d := by
      simp only [crawl_siteG]
      apply crawlLoopG_depth
      intro e he
      rcases List.mem_singleton.1 he with rfl
      exact Nat.zero_le d
    obtain ⟨v, hv⟩ := Option.isSome_iff_exists.1
      ((alookup_isSome_iff u (crawl_siteG fetch sched start (some d) fuel).1).2 humemG)
    obtain ⟨r, dep⟩ := v
    have hmem := mem_of_alookup_eq_some hv
    have hle : dep ≤ d := hdep0 (u, r, dep) hmem
    simp only [discoveredWithin, hv]
    exact hle
  · intro hf hd0
    subst hd0
    exact crawl_site_depth0_keys fetch sched start fuel hs hf

/-- Witness for C3 at Scenario B with `max_depth = 1`. -/
theorem c3_witness :
    (crawl_site notFoundFetch idSched "example.com".data (some 1) 3).1 =
      eraseDepth (crawl_siteG notFoundFetch idSched "example.com".data (some 1) 3).1 ∧
    discoveredWithin 1 "http://example.com/missing".data
      (crawl_siteG notFoundFetch idSched "example.com".data (some 1) 3).1 ∧
    (2 ≤ 3 → 1 = 0 →
      keys (crawl_site notFoundFetch idSched "example.com".data (some 1) 3).2.1 =
        [normalize_url (withScheme "example.com".data)]) :=
  c3_depth_monotonicity notFoundFetch idSched "example.com".data 1 3 idSched_ok
    "http://example.com/missing".data (by decide)

/-! ## The domain classifier (C5) -/

/-- The spec's scheme class (§3, §4.1): `http` and `https` collapse into the
single web class (`none`); any other scheme stands for itself (`some s`). -/
def schemeClass (s : Chars) : Option Chars :=
  if s = "http".data ∨ s = "https".data then none else some s

/-- The spec's registrable domain (§4.1): the last two dot-separated labels
joined by `.`; a value with at most two labels is returned whole.  This is
the expression the code applies to the netloc. -/
def registrableDomain (host : Chars) : Chars :=
  List.intercalate ['.'] (lastTwo (host.splitOn '.'))

/-- Modelled from the spec: the claim speaks of the registrable domain "of
the host", and a URL's host is the authority with userinfo and port
stripped — the part after the last `@` and before the next `:` (IPv6
brackets and lowercasing, which the counterexample does not touch, are not
modelled). -/
def specHost (netloc : Chars) : Chars :=
  let hostinfo :=
    match splitLast '@' netloc with
    | some (_, h) => h
    | none => netloc
  match splitFirst ':' hostinfo with
  | some (h, _) => h
  | none => hostinfo

/-- The boolean scheme comparison of `is_same_domain` agrees with the
spec's scheme classes. -/
theorem schemes_match_iff (s b : Chars) :
    ((s == b) || ((s == "http".data || s == "https".data) &&
      (b == "http".data || b == "https".data))) = true ↔
    schemeClass s = schemeClass b := by
  simp only [Bool.or_eq_true, Bool.and_eq_true, beq_iff_eq, schemeClass]
  by_cases hs : s = "http".data ∨ s = "https".data
  · by_cases hb : b = "http".data ∨ b = "https".data
    · rw [if_pos hs, if_pos hb]
      simp [hs, hb]
    · rw [if_pos hs, if_neg hb]
      constructor
      · rintro (rfl | ⟨_, h2⟩)
        · exact absurd hs hb
        · exact absurd h2 hb
      · intro h
        cases h
  · by_cases hb : b = "http".data ∨ b = "https".data
    · rw [if_neg hs, if_pos hb]
      constructor
      · rintro (rfl | ⟨h1, _⟩)
        · exact absurd hb hs
        · exact absurd h1 hs
      · intro h
        cases h
    · rw [if_neg hs, if_neg hb]
      constructor
      · rintro (rfl | ⟨h1, _⟩)
        · rfl
        · exact absurd h1 hs
      · intro h
        injection h with h
        exact Or.inl h

/-- C5 as amended.  `is_same_domain` returns true iff the scheme classes
match and the registrable domains agree — computed from the full netloc
(the authority string, port and userinfo included), not from the bare
host. -/
theorem c5_same_domain_iff (url : Chars) (base : Chars × Chars) :
    is_same_domain url base = true ↔
      (schemeClass (urlparse url).scheme = schemeClass base.1 ∧
        registrableDomain (urlparse url).netloc = registrableDomain base.2) := by
  obtain ⟨bs, bn⟩ := base
  simp only [is_same_domain, get_domain, registrableDomain, lastTwo,
    Bool.and_eq_true, beq_iff_eq]
  rw [← schemes_match_iff]

/-- Counterexample to C5 as stated: a URL whose netloc carries a port.  The
code compares registrable domains of netlocs and answers false, while the
claim's registrable-domains-of-hosts agree and its scheme classes match, so
the claimed biconditional demands true. -/
theorem c5_counterexample :
    is_same_domain "http://a.com:8080/x".data ("http".data, "a.com".data) = false ∧
    schemeClass (urlparse "http://a.com:8080/x".data).scheme =
      schemeClass ("http".data, "a.com".data).1 ∧
    registrableDomain (specHost (urlparse "http://a.com:8080/x".data).netloc) =
      registrableDomain (specHost ("http".data, "a.com".data).2) := by
  decide

/-! ## URL validity (C6) -/

/-- C6 as amended.  `is_valid_url` returns false exactly when the URL
starts with one of the pseudo-scheme prefixes, or its parse lacks a scheme
**or** lacks a host — not only when it lacks both.  The check is a pure
function of the URL string (the embedding's `is_valid_url` takes no
network). -/
theorem c6_is_valid_url_iff (url : Chars) :
    is_valid_url url = false ↔
      (pseudoSchemes.any (fun p => p.isPrefixOf url) = true ∨
        (urlparse url).scheme = [] ∨ (urlparse url).netloc = []) := by
  simp only [is_valid_url]
  by_cases hp : pseudoSchemes.any (fun p => p.isPrefixOf url) = true
  · rw [if_pos hp]
    simp [hp]
  · rw [if_neg hp]
    simp only [hp, false_or]
    generalize (urlparse url).scheme = s
    generalize (urlparse url).netloc = n
    rcases s with _ | ⟨c, cs⟩ <;> rcases n with _ | ⟨c2, cs2⟩ <;> simp

/-- Counterexample to C6 as stated: `http:x` starts with no pseudo-scheme
prefix and its parse has a scheme (it only lacks a host), so the claim
demands `true`; the code returns `false`. -/
theorem c6_counterexample :
    is_valid_url "http:x".data = false ∧
    pseudoSchemes.any (fun p => p.isPrefixOf "http:x".data) = false ∧
    ¬((urlparse "http:x".data).scheme = [] ∧ (urlparse "http:x".data).netloc = []) := by
  decide

/-! ## Normalization (C4)

`normalize_url` is not idempotent in general (relative URLs grow, paths
with dot or empty segments collapse, fragment-only URLs keep their
fragment), so C4 is proved in an amended form: on URLs that parse to an
`http`/`https` scheme, a nonempty delimiter-free netloc, a `/`-rooted
dot-free path, empty params and a `#`-free query, normalization returns
`scheme://netloc ++ path ++ optional-query` verbatim, is idempotent, and
identifies URLs differing only in their fragment. -/

/-- The optional `?query` suffix `normalize_url` appends. -/
def optQuery (q : Chars) : Chars := if q ≠ [] then '?' :: q else []

/-- Netlocs the roundtrip argument covers: nonempty and free of the
delimiters that would end the netloc early. -/
def CleanNetloc (h : Chars) : Prop :=
  h ≠ [] ∧ '/' ∉ h ∧ '?' ∉ h ∧ '#' ∉ h

/-- Paths the roundtrip argument covers: rooted at a single `/`, free of
query/fragment/params delimiters, and with no `.` or `..` segments. -/
def CleanPath (p : Chars) : Prop :=
  p.take 1 = ['/'] ∧ p.take 2 ≠ ['/', '/'] ∧ '?' ∉ p ∧ '#' ∉ p ∧ ';' ∉ p ∧
  ∀ s ∈ p.splitOn '/', s ≠ ['.'] ∧ s ≠ ['.', '.']

/-- Queries the roundtrip argument covers: free of `#`. -/
def CleanQuery (q : Chars) : Prop := '#' ∉ q

theorem splitFirst_of_not_mem (c : Char) (l : Chars) (h : c ∉ l) :
    splitFirst c l = none := by
  induction l with
  | nil => rfl
  | cons a rest ih =>
    simp only [List.mem_cons, not_or] at h
    simp only [splitFirst]
    rw [if_neg (fun hc => h.1 hc.symm), ih h.2]
    rfl

theorem splitFirst_append (c : Char) (a b : Chars) (h : c ∉ a) :
    splitFirst c (a ++ c :: b) = some (a, b) := by
  induction a with
  | nil =>
    simp [splitFirst]
  | cons x rest ih =>
    simp only [List.mem_cons, not_or] at h
    simp only [List.cons_append, splitFirst]
    rw [if_neg (fun hc => h.1 hc.symm)]
    simp [ih h.2]

theorem splitScheme_slash (l : Chars) : splitScheme ('/' :: l) = none := rfl

theorem splitScheme_http (rest : Chars) :
    splitScheme ("http".data ++ ':' :: rest) = some ("http".data, rest) := rfl

theorem splitScheme_https (rest : Chars) :
    splitScheme ("https".data ++ ':' :: rest) = some ("https".data, rest) := rfl

theorem splitNetloc_append (h rest : Chars) (hh : ∀ c ∈ h, isNetlocStop c = false) :
    splitNetloc (h ++ '/' :: rest) = (h, '/' :: rest) := by
  induction h with
  | nil =>
    simp [splitNetloc, List.takeWhile, List.dropWhile, isNetlocStop]
  | cons c cs ih =>
    have hc : isNetlocStop c = false := hh c (List.mem_cons_self _ _)
    have hcs : ∀ c2 ∈ cs, isNetlocStop c2 = false :=
      fun c2 h2 => hh c2 (List.mem_cons_of_mem _ h2)
    have ihr := ih hcs
    simp only [splitNetloc, List.cons_append, List.takeWhile, List.dropWhile, hc] at ihr ⊢
    simp only [Bool.not_false, Prod.mk.injEq] at ihr ⊢
    exact ⟨congrArg (c :: ·) ihr.1, ihr.2⟩

theorem resolveLoop_no_dots (segs : List Chars) :
    ∀ acc : List Chars, (∀ s ∈ segs, s ≠ ['.'] ∧ s ≠ ['.', '.']) →
    resolveLoop acc segs = acc.reverse ++ segs := by
  induction segs with
  | nil =>
    intro acc _
    simp [resolveLoop]
  | cons s rest ih =>
    intro acc h
    have hs := h s (List.mem_cons_self _ _)
    have hrest : ∀ s2 ∈ rest, s2 ≠ ['.'] ∧ s2 ≠ ['.', '.'] :=
      fun s2 h2 => h s2 (List.mem_cons_of_mem _ h2)
    simp only [resolveLoop]
    rw [if_neg hs.2, if_neg hs.1, ih (s :: acc) hrest]
    simp

theorem eq_cons_of_take_one {p : Chars} {c : Char} (h : p.take 1 = [c]) :
    ∃ t, p = c :: t := by
  cases p with
  | nil => simp at h
  | cons a t =>
    simp only [List.take, List.cons.injEq] at h
    exact ⟨t, by rw [h.1]⟩

theorem schemeSplit_slash (l d : Chars) : schemeSplit ('/' :: l) d = (d, '/' :: l) := rfl

theorem netlocSplit_of_ne (l : Chars) (h : l.take 2 ≠ ['/', '/']) :
    netlocSplit l = ([], l) := by
  simp only [netlocSplit]
  rw [if_neg h]

theorem fragmentSplit_of_not_mem (l : Chars) (h : '#' ∉ l) :
    fragmentSplit l = (l, []) := by
  simp only [fragmentSplit, splitFirst_of_not_mem _ _ h]

theorem querySplit_of_not_mem (l : Chars) (h : '?' ∉ l) :
    querySplit l = (l, []) := by
  simp only [querySplit, splitFirst_of_not_mem _ _ h]

theorem querySplit_append (a b : Chars) (h : '?' ∉ a) :
    querySplit (a ++ '?' :: b) = (a, b) := by
  simp only [querySplit, splitFirst_append _ _ _ h]

/-- Parsing the reference `path ++ optional-query` that `normalize_url`
passes to `urljoin`: no scheme is found, no netloc is split, the fragment
is empty and the path and query are recovered verbatim. -/
theorem urlsplit_relative (s p q : Chars) (hp : CleanPath p) (hq : CleanQuery q) :
    urlsplit (p ++ optQuery q) s = ⟨s, [], p, q, []⟩ := by
  obtain ⟨hp1, hp2, hpq, hpf, hps, hpsegs⟩ := hp
  obtain ⟨p', rfl⟩ := eq_cons_of_take_one hp1
  have hfrag : '#' ∉ ('/' :: p') ++ optQuery q := by
    intro hmem
    rcases List.mem_append.1 hmem with hmem | hmem
    · exact hpf hmem
    · by_cases hq0 : q = []
      · simp [optQuery, hq0] at hmem
      · simp only [optQuery, if_pos hq0] at hmem
        rcases List.mem_cons.1 hmem with hcq | hmem
        · cases hcq
        · exact hq hmem
  have htake2 : (('/' :: p') ++ optQuery q).take 2 ≠ ['/', '/'] := by
    cases p' with
    | nil =>
      by_cases hq0 : q = []
      · simp [optQuery, hq0]
      · simp only [optQuery, if_pos hq0]
        intro hcontra
        simp only [List.cons_append, List.nil_append, List.take, List.cons.injEq] at hcontra
        rcases hcontra with ⟨_, hcontra, _⟩
        cases hcontra
    | cons c2 t =>
      intro hcontra
      apply hp2
      have hc2 : c2 = '/' := by
        have hg := congrArg (fun l => l.get? 1) hcontra
        simpa using hg
      rw [hc2]
      rfl
  have h1 : schemeSplit (('/' :: p') ++ optQuery q) s = (s, ('/' :: p') ++ optQuery q) :=
    schemeSplit_slash _ _
  have h2 : netlocSplit (('/' :: p') ++ optQuery q) = ([], ('/' :: p') ++ optQuery q) :=
    netlocSplit_of_ne _ htake2
  have h3 : fragmentSplit (('/' :: p') ++ optQuery q) = (('/' :: p') ++ optQuery q, []) :=
    fragmentSplit_of_not_mem _ hfrag
  by_cases hq0 : q = []
  · subst hq0
    have hoq : optQuery ([] : Chars) = [] := rfl
    have h4 : querySplit ('/' :: p') = ('/' :: p', []) := querySplit_of_not_mem _ hpq
    simp only [urlsplit, h1, h2, h3, hoq, List.append_nil] at *
    simp only [urlsplit, h1, h2, h3, h4]
  · have hoq : optQuery q = '?' :: q := by simp [optQuery, hq0]
    have h4 : querySplit (('/' :: p') ++ '?' :: q) = ('/' :: p', q) :=
      querySplit_append _ _ hpq
    rw [hoq] at h1 h2 h3
    simp only [urlsplit, hoq, h1, h2, h3, h4]

theorem paramsSplit_of_not_mem (scheme path : Chars) (h : ';' ∉ path) :
    paramsSplit scheme path = (path, []) := by
  simp only [paramsSplit]
  rw [if_neg]
  rintro ⟨_, h2⟩
  rw [splitFirst_of_not_mem _ _ h] at h2
  cases h2

/-- `urlparse` on the reference `path ++ optional-query`. -/
theorem urlparse_relative (s p q : Chars) (hp : CleanPath p) (hq : CleanQuery q) :
    urlparse (p ++ optQuery q) s = ⟨s, [], p, [], q, []⟩ := by
  have hsplit := urlsplit_relative s p q hp hq
  have hsemi := paramsSplit_of_not_mem s p hp.2.2.2.2.1
  simp only [urlparse, hsplit, hsemi]

/-- Stop-character freedom of a clean netloc. -/
theorem cleanNetloc_stop (h : Chars) (hh : CleanNetloc h) :
    ∀ c ∈ h, isNetlocStop c = false := by
  intro c hc
  have h1 : ¬c = '/' := fun e => hh.2.1 (e ▸ hc)
  have h2 : ¬c = '?' := fun e => hh.2.2.1 (e ▸ hc)
  have h3 : ¬c = '#' := fun e => hh.2.2.2 (e ▸ hc)
  simp [isNetlocStop, h1, h2, h3]

/-- `urlsplit` on the canonical absolute form
`scheme://netloc ++ path ++ optional-query`. -/
theorem urlsplit_absolute (sch h p q : Chars)
    (hsch : sch = "http".data ∨ sch = "https".data)
    (hh : CleanNetloc h) (hp : CleanPath p) (hq : CleanQuery q) :
    urlsplit (sch ++ ':' :: '/' :: '/' :: (h ++ (p ++ optQuery q))) [] =
      ⟨sch, h, p, q, []⟩ := by
  obtain ⟨p', hpshape⟩ := eq_cons_of_take_one hp.1
  have hstop := cleanNetloc_stop h hh
  have hnet : splitNetloc (h ++ (p ++ optQuery q)) = (h, p ++ optQuery q) := by
    rw [hpshape, List.cons_append]
    exact splitNetloc_append h (p' ++ optQuery q) hstop
  have hfrag : fragmentSplit (p ++ optQuery q) = (p ++ optQuery q, []) := by
    apply fragmentSplit_of_not_mem
    intro hmem
    rcases List.mem_append.1 hmem with hmem | hmem
    · exact hp.2.2.2.1 hmem
    · by_cases hq0 : q = []
      · simp [optQuery, hq0] at hmem
      · simp only [optQuery, if_pos hq0] at hmem
        rcases List.mem_cons.1 hmem with hcq | hmem
        · cases hcq
        · exact hq hmem
  have hquery : querySplit (p ++ optQuery q) = (p, q) := by
    by_cases hq0 : q = []
    · subst hq0
      rw [show optQuery ([] : Chars) = [] from rfl, List.append_nil]
      exact querySplit_of_not_mem _ hp.2.2.1
    · rw [show optQuery q = '?' :: q by simp [optQuery, hq0]]
      exact querySplit_append _ _ hp.2.2.1
  rcases hsch with rfl | rfl
  · have h1 : schemeSplit ("http".data ++ ':' :: '/' :: '/' :: (h ++ (p ++ optQuery q)))
        [] = ("http".data, '/' :: '/' :: (h ++ (p ++ optQuery q))) := rfl
    have h2 : netlocSplit ('/' :: '/' :: (h ++ (p ++ optQuery q))) =
        splitNetloc (h ++ (p ++ optQuery q)) := rfl
    simp only [urlsplit, h1, h2, hnet, hfrag, hquery]
  · have h1 : schemeSplit ("https".data ++ ':' :: '/' :: '/' :: (h ++ (p ++ optQuery q)))
        [] = ("https".data, '/' :: '/' :: (h ++ (p ++ optQuery q))) := rfl
    have h2 : netlocSplit ('/' :: '/' :: (h ++ (p ++ optQuery q))) =
        splitNetloc (h ++ (p ++ optQuery q)) := rfl
    simp only [urlsplit, h1, h2, hnet, hfrag, hquery]

/-- `urlparse` on the canonical absolute form. -/
theorem urlparse_absolute (sch h p q : Chars)
    (hsch : sch = "http".data ∨ sch = "https".data)
    (hh : CleanNetloc h) (hp : CleanPath p) (hq : CleanQuery q) :
    urlparse (sch ++ ':' :: '/' :: '/' :: (h ++ (p ++ optQuery q))) [] =
      ⟨sch, h, p, [], q, []⟩ := by
  have hsplit := urlsplit_absolute sch h p q hsch hh hp hq
  have hsemi := paramsSplit_of_not_mem sch p hp.2.2.2.2.1
  simp only [urlparse, hsplit, hsemi]

/-- The canonical shape produced by `normalize_url` on a clean absolute
http/https URL: `scheme://netloc ++ path ++ optional-query`. -/
def canonicalHttp (sch h p q : Chars) : Chars :=
  sch ++ ':' :: '/' :: '/' :: (h ++ (p ++ optQuery q))

theorem mem_of_getLast_eq_some {l : List Chars} {v : Chars}
    (hv : l.getLast? = some v) : v ∈ l := by
  obtain ⟨hne, he⟩ := List.mem_getLast?_eq_getLast (Option.mem_def.mpr hv)
  rw [he]
  exact List.getLast_mem hne

/-- Unparsing a clean absolute split yields the canonical shape. -/
theorem urlunparse_canonical (sch h p q : Chars) (hsne : sch ≠ [])
    (hhne : h ≠ []) (hp1 : p.take 1 = ['/']) :
    urlunparse ⟨sch, h, p, [], q, []⟩ = canonicalHttp sch h p q := by
  have hpne : p ≠ [] := by
    intro h0
    rw [h0] at hp1
    cases hp1
  by_cases hq0 : q = []
  · subst hq0
    simp [urlunparse, urlunsplit, canonicalHttp, optQuery, hsne, hhne, hpne, hp1]
  · simp [urlunparse, urlunsplit, canonicalHttp, optQuery, hsne, hhne, hpne, hp1, hq0,
      List.append_assoc]

/-- `normalize_url` on a URL parsing to a clean absolute http/https form
returns the canonical `scheme://netloc ++ path ++ optional-query` shape:
the fragment is dropped and the path and query are kept verbatim. -/
theorem normalize_url_canonical (u sch h p q f : Chars)
    (hu : urlparse u [] = ⟨sch, h, p, [], q, f⟩)
    (hsch : sch = "http".data ∨ sch = "https".data)
    (hh : CleanNetloc h) (hp : CleanPath p) (hq : CleanQuery q) :
    normalize_url u = canonicalHttp sch h p q := by
  have hsne : sch ≠ [] := by rcases hsch with rfl | rfl <;> decide
  have hrel : sch ∈ usesRelative := by rcases hsch with rfl | rfl <;> decide
  have hunet : sch ∈ usesNetloc := by rcases hsch with rfl | rfl <;> decide
  obtain ⟨p', hps⟩ := eq_cons_of_take_one hp.1
  have hpne : p ≠ [] := by rw [hps]; exact List.cons_ne_nil _ _
  have hune : u ≠ [] := by
    intro h0
    rw [h0] at hu
    have h1 : ([] : Chars) = sch := congrArg ParseResult.scheme hu
    exact hsne h1.symm
  have href : ¬(p ++ optQuery q = []) := by
    rw [hps]
    simp
  have hr : urlparse (p ++ optQuery q) sch = ⟨sch, [], p, [], q, []⟩ :=
    urlparse_relative sch p q hp hq
  have hnorm : normalize_url u = urljoin u (p ++ optQuery q) := by
    simp only [normalize_url, hu, optQuery]
  rw [hnorm]
  simp only [urljoin]
  rw [if_neg hune, if_neg href]
  simp only [hu, hr]
  rw [if_neg (by rintro (h1 | h1); exacts [h1 rfl, h1 hrel])]
  rw [if_neg (by rintro ⟨_, h1⟩; exact h1 rfl)]
  rw [if_pos hunet]
  rw [if_neg (by rintro ⟨h1, _⟩; exact hpne h1)]
  rw [if_pos hp.1]
  rw [resolveLoop_no_dots (p.splitOn '/') [] hp.2.2.2.2.2]
  simp only [List.reverse_nil, List.nil_append]
  have hdot : ¬((p.splitOn '/').getLast? = some ['.', '.'] ∨
      (p.splitOn '/').getLast? = some ['.']) := by
    rintro (h1 | h1)
    · exact (hp.2.2.2.2.2 _ (mem_of_getLast_eq_some h1)).2 rfl
    · exact (hp.2.2.2.2.2 _ (mem_of_getLast_eq_some h1)).1 rfl
  rw [if_neg hdot]
  rw [List.intercalate_splitOn, if_neg hpne]
  exact urlunparse_canonical sch h p q hsne hh.1 hp.1

/-- C4: as stated the claim is false — `normalize_url` is not idempotent in
general ("a/b" renormalizes to "a/a/b" and again to "a/a/a/b"), because
`urljoin(url, path)` re-merges a relative path against itself.  Corrected
form: on every URL parsing to an http/https scheme, a clean nonempty netloc,
a `/`-rooted dot-free path, empty params and a `#`-free query,
`normalize_url` returns `scheme://netloc ++ path ++ optional-query` with the
path and query verbatim (an empty query omits the `?`), is idempotent, and
sends any two URLs with those parse components differing only in fragment to
the same key. -/
theorem c4_normalize_idempotent_on_clean (u sch h p q f : Chars)
    (hu : urlparse u [] = ⟨sch, h, p, [], q, f⟩)
    (hsch : sch = "http".data ∨ sch = "https".data)
    (hh : CleanNetloc h) (hp : CleanPath p) (hq : CleanQuery q) :
    normalize_url u = canonicalHttp sch h p q ∧
    normalize_url (normalize_url u) = normalize_url u ∧
    ∀ u2 f2, urlparse u2 [] = ⟨sch, h, p, [], q, f2⟩ →
      normalize_url u2 = normalize_url u := by
  have h1 := normalize_url_canonical u sch h p q f hu hsch hh hp hq
  have hu2 : urlparse (canonicalHttp sch h p q) [] = ⟨sch, h, p, [], q, []⟩ :=
    urlparse_absolute sch h p q hsch hh hp hq
  refine ⟨h1, ?_, ?_⟩
  · rw [h1]
    exact normalize_url_canonical _ sch h p q [] hu2 hsch hh hp hq
  · intro u2 f2 hf2
    rw [normalize_url_canonical u2 sch h p q f2 hf2 hsch hh hp hq, h1]

/-- C4 counterexample to the claim as stated: `normalize_url` is not
idempotent on the scheme-less URL "a/b" — normalizing once gives "a/a/b",
normalizing again gives "a/a/a/a/b". -/
theorem c4_counterexample :
    normalize_url (normalize_url "a/b".data) ≠ normalize_url "a/b".data ∧
    normalize_url "a/b".data = "a/a/b".data ∧
    normalize_url (normalize_url "a/b".data) = "a/a/a/a/b".data := by decide

/-- C4 witness: on "http://a.com/p?z=1#x" normalization drops the fragment,
keeps path and query verbatim, is idempotent, and collapses the
fragment-variant "http://a.com/p?z=1#y" to the same key. -/
theorem c4_witness :
    normalize_url "http://a.com/p?z=1#x".data = "http://a.com/p?z=1".data ∧
    normalize_url (normalize_url "http://a.com/p?z=1#x".data) =
      normalize_url "http://a.com/p?z=1#x".data ∧
    normalize_url "http://a.com/p?z=1#y".data =
      normalize_url "http://a.com/p?z=1#x".data := by
  have h := c4_normalize_idempotent_on_clean "http://a.com/p?z=1#x".data "http".data
      "a.com".data "/p".data "z=1".data "x".data rfl (Or.inl rfl)
      (by unfold CleanNetloc; decide) (by unfold CleanPath; decide)
      (by unfold CleanQuery; decide)
  refine ⟨?_, h.2.1, h.2.2 _ "y".data rfl⟩
  rw [h.1]
  decide
